import Mathlib

/-!
Verification of the work-dividing library in src/lib.rs (crate and-conquer).

The library exposes two functions, both of type
(Vec T, F : T -> R) -> Vec R:

- divide_equal_work (lib.rs 10-48): below the threshold it maps f
  sequentially; otherwise it computes one split index per core with
  single-precision (f32) arithmetic, extracts contiguous chunks with
  Vec::split_off working from the last core towards core 0, runs one worker
  thread per chunk, and concatenates the per-chunk results back in original
  order.
- divide_work (lib.rs 54-127): below the threshold it maps f sequentially;
  otherwise it puts the whole input behind a mutex, spawns one worker per
  core, and each worker repeatedly (pop the last element, read the remaining
  length as the original index of that element) under one lock acquisition,
  applies f outside the lock and records (index, result).  The coordinator
  joins the workers and writes every recorded result at its recorded index
  into a pre-sized output buffer.

The embedding below is faithful to the source:
- the f32 boundary arithmetic of lib.rs line 21 and 25 is modelled exactly
  (IEEE binary32, round to nearest, ties to even, for the casts and the
  arithmetic; round half away from zero for f32::round), with rational
  numbers carrying the exact values;
- `cores` (the value of num_cpus::get()) is an explicit parameter;
- a panic (of the transformation, of split_off, or propagated from a worker)
  is modelled as the Option value none; the transformation is f : T -> Option R
  and a pure transformation is fun t => some (g t);
- the interleaving of queue pops in divide_work is an explicit schedule
  parameter sched : Nat -> Nat assigning the k-th pop (they are serialized by
  the mutex) to a worker.
-/

set_option exponentiation.threshold 2000
set_option maxRecDepth 40000

/-- Parallelism threshold, lib.rs line 4: const PARALLEL_WORK_THRESHOLD: usize = 10. -/
def PARALLEL_WORK_THRESHOLD : Nat := 10

/-- The branch condition input.len() < PARALLEL_WORK_THRESHOLD shared by both
dividers (lib.rs lines 16 and 60); true selects the sequential path. -/
def usesSequential (len : Nat) : Bool := decide (len < PARALLEL_WORK_THRESHOLD)

/-- Fuel-bounded floor of the base-2 logarithm of a natural number; with fuel
above the result it computes the exact floor of log2 (and 0 at input 0). -/
def log2Fuel : Nat → Nat → Nat
  | 0, _ => 0
  | fuel + 1, n => if 2 ≤ n then log2Fuel fuel (n / 2) + 1 else 0

/-- Floor of the base-2 logarithm of a rational number, exact whenever
2 ^ (-300) ≤ q (all values reaching it are far larger).  The fuel n + 1 always
suffices because n < 2 ^ (n + 1). -/
def floorLog2Rat (q : ℚ) : ℤ :=
  (log2Fuel (q.num.toNat * 2 ^ 300 / q.den + 1) (q.num.toNat * 2 ^ 300 / q.den) : ℤ) - 300

/-- The rational 2 ^ e for an integer e, written with Nat powers and mkRat so
that it evaluates by reduction. -/
def pow2 (e : ℤ) : ℚ :=
  match e with
  | .ofNat m => ((2 ^ m : ℕ) : ℚ)
  | .negSucc m => mkRat 1 (2 ^ (m + 1))

/-- The rational one half, written with mkRat so that it evaluates by
reduction. -/
def half : ℚ := mkRat 1 2

/-- Round a rational to the nearest integer, ties to even: the IEEE 754
default rounding used by Rust for int-to-float casts and for f32 arithmetic. -/
def roundHalfEvenInt (q : ℚ) : ℤ :=
  if q - ⌊q⌋ < half then ⌊q⌋
  else if half < q - ⌊q⌋ then ⌊q⌋ + 1
  else if ⌊q⌋ % 2 = 0 then ⌊q⌋ else ⌊q⌋ + 1

/-- Exact value of rounding a nonnegative rational to IEEE binary32 (24-bit
significand, subnormals below 2 ^ (-126), round to nearest ties to even).
Faithful for every value below 2 ^ 128; the program only rounds values below
2 ^ 66, far from f32 overflow. -/
def toF32 (q : ℚ) : ℚ :=
  if q ≤ 0 then 0
  else
    (roundHalfEvenInt (q * pow2 (-max (floorLog2Rat q - 23) (-149))) : ℚ)
      * pow2 (max (floorLog2Rat q - 23) (-149))

/-- Exact division of rationals written with Rat.divInt so that it evaluates
by reduction; ratDiv a b = a / b (lemma ratDiv_eq below). -/
def ratDiv (a b : ℚ) : ℚ := Rat.divInt (a.num * b.den) (a.den * b.num)

/-- The cast usize-to-f32 (length as f32, cores as f32, core as f32 in
lib.rs 21 and 25): round to nearest, ties to even. -/
def natToF32 (n : Nat) : ℚ := toF32 (n : ℚ)

/-- f32 division (lib.rs 21): exact quotient, correctly rounded. -/
def divF32 (a b : ℚ) : ℚ := toF32 (ratDiv a b)

/-- f32 multiplication (lib.rs 25): exact product, correctly rounded. -/
def mulF32 (a b : ℚ) : ℚ := toF32 (a * b)

/-- f32::round on a nonnegative value: round half away from zero (which on
nonnegative values is: up at fractional part one half or more). -/
def roundAwayInt (q : ℚ) : ℤ := if q - ⌊q⌋ < half then ⌊q⌋ else ⌊q⌋ + 1

/-- f32::round composed with the cast as usize of an already nonnegative
integral value (lib.rs 25). -/
def roundAwayNat (q : ℚ) : Nat := (roundAwayInt q).toNat

/-- The split index for a given core, lib.rs 21 and 25:
(length as f32 / cores as f32 * core as f32).round() as usize, with the
as-usize saturation at usize::MAX on a 64-bit target. -/
def boundary (length cores core : Nat) : Nat :=
  min (roundAwayNat (mulF32 (divF32 (natToF32 length) (natToF32 cores)) (natToF32 core)))
    (2 ^ 64 - 1)

/-- The split_off loop of lib.rs 23-31: cores are processed from cores - 1
down to 0; Vec::split_off(i) panics (none) when i exceeds the current length,
otherwise it returns the suffix from i and keeps the prefix; the chunks are
returned in ascending core order, which is the order restored by the .rev()
at lib.rs 37. -/
def equalChunks {T : Type} (bnd : Nat → Nat) : Nat → List T → Option (List (List T))
  | 0, _ => some []
  | c + 1, rem =>
    if bnd c ≤ rem.length then
      (equalChunks bnd c (rem.take (bnd c))).map (fun cs => cs ++ [rem.drop (bnd c)])
    else
      none

/-- divide_equal_work, lib.rs 10-48.  cores is the value of num_cpus::get();
f returning none models the transformation panicking on that element, and a
none result models the whole call panicking (either a split_off panic or a
worker panic propagated at lib.rs 42). -/
def divide_equal_work {T R : Type} (cores : Nat) (input : List T) (f : T → Option R) :
    Option (List R) :=
  if usesSequential input.length then input.mapM f
  else do
    let chunks ← equalChunks (boundary input.length cores) cores input
    let results ← chunks.mapM (fun c => c.mapM f)
    pure results.flatten

/-- The serialized stream of queue pops of lib.rs 77-83: the k-th pop removes
the last element of the remaining queue and records the remaining length,
which is that element's original index; so the stream is the enumerated input
reversed. -/
def popStream {T : Type} (input : List T) : List (Nat × T) := input.enum.reverse

/-- The (index, element) pairs popped by worker w under a schedule assigning
each serialized pop to a worker, in the order that worker popped them. -/
def workerPops {T : Type} (sched : Nat → Nat) (input : List T) (w : Nat) : List (Nat × T) :=
  (((popStream input).enum.filter (fun kp => sched kp.1 == w)).map Prod.snd)

/-- All (index, element) pairs recorded across the workers, in worker order
(the order the coordinator joins them, lib.rs 102). -/
def recordedPairs {T : Type} (cores : Nat) (sched : Nat → Nat) (input : List T) :
    List (Nat × T) :=
  ((List.range cores).map (workerPops sched input)).flatten

/-- The coordinator's writes into the pre-sized output buffer (lib.rs
105-113): each (idx, r) pair writes r at position idx. -/
def writeResults {R : Type} (pairs : List (Nat × R)) : Nat → Option R :=
  pairs.foldl (fun b pr => Function.update b pr.1 (some pr.2)) (fun _ => none)

/-- divide_work, lib.rs 54-127.  cores is the value of num_cpus::get(); sched
assigns the k-th serialized pop to a worker (any interleaving of the real
program gives such a schedule); f returning none models the transformation
panicking, and a none result models the whole call panicking (lib.rs 116).
The final read-back of the buffer is none at any position never written,
reflecting that the code must fully initialize the buffer before set_len. -/
def divide_work {T R : Type} (cores : Nat) (sched : Nat → Nat) (input : List T)
    (f : T → Option R) : Option (List R) :=
  if usesSequential input.length then input.mapM f
  else do
    let results ← (List.range cores).mapM
      (fun w => (workerPops sched input w).mapM (fun p => (f p.2).map (fun r => (p.1, r))))
    (List.range input.length).mapM (writeResults results.flatten)

/-! ### Generic Option traversal lemmas -/

theorem mapM_eq_some_map {α β : Type} (F : α → Option β) (G : α → β) (l : List α)
    (h : ∀ a ∈ l, F a = some (G a)) : l.mapM F = some (l.map G) := by
  induction l with
  | nil => rfl
  | cons a t ih =>
    rw [List.mapM_cons, h a (List.mem_cons_self a t), ih (fun x hx => h x (List.mem_cons_of_mem a hx))]
    rfl

theorem mapM_eq_none {α β : Type} (F : α → Option β) (l : List α) (a : α)
    (ha : a ∈ l) (hFa : F a = none) : l.mapM F = none := by
  induction l with
  | nil => cases ha
  | cons b t ih =>
    rw [List.mapM_cons]
    rcases List.mem_cons.mp ha with rfl | hmem
    · rw [hFa]; rfl
    · cases hFb : F b with
      | none => rfl
      | some v => rw [ih hmem]; rfl

/-! ### Structure of the split_off loop -/

theorem equalChunks_zero {T : Type} (bnd : Nat → Nat) (rem : List T) :
    equalChunks bnd 0 rem = some [] := rfl

theorem equalChunks_succ {T : Type} (bnd : Nat → Nat) (c : Nat) (rem : List T) :
    equalChunks bnd (c + 1) rem =
      if bnd c ≤ rem.length then
        (equalChunks bnd c (rem.take (bnd c))).map (fun cs => cs ++ [rem.drop (bnd c)])
      else none := rfl

theorem equalChunks_bnd_zero_le {T : Type} (bnd : Nat → Nat) (c : Nat) (rem : List T)
    (cs : List (List T)) (h : equalChunks bnd (c + 1) rem = some cs) : bnd 0 ≤ rem.length := by
  induction c generalizing rem cs with
  | zero =>
    rw [equalChunks_succ] at h
    split_ifs at h with hle
    · exact hle
  | succ c ih =>
    rw [equalChunks_succ] at h
    split_ifs at h with hle
    · obtain ⟨cs1, hcs1, _⟩ := Option.map_eq_some'.mp h
      have := ih _ _ hcs1
      calc bnd 0 ≤ (rem.take (bnd (c + 1))).length := this
        _ ≤ rem.length := by rw [List.length_take]; exact min_le_right _ _

theorem equalChunks_flatten {T : Type} (bnd : Nat → Nat) (c : Nat) (rem : List T)
    (cs : List (List T)) (h : equalChunks bnd (c + 1) rem = some cs) :
    cs.flatten = rem.drop (bnd 0) := by
  induction c generalizing rem cs with
  | zero =>
    rw [equalChunks_succ] at h
    split_ifs at h with hle
    · rw [equalChunks_zero] at h
      obtain ⟨cs1, hcs1, rfl⟩ := Option.map_eq_some'.mp h
      obtain rfl : cs1 = [] := by injection hcs1.symm
      simp
  | succ c ih =>
    rw [equalChunks_succ] at h
    split_ifs at h with hle
    · obtain ⟨cs1, hcs1, rfl⟩ := Option.map_eq_some'.mp h
      have h0 : bnd 0 ≤ (rem.take (bnd (c + 1))).length := equalChunks_bnd_zero_le _ _ _ _ hcs1
      rw [List.flatten_append, ih _ _ hcs1]
      simp only [List.flatten, List.append_nil]
      conv_rhs => rw [← List.take_append_drop (bnd (c + 1)) rem]
      rw [List.drop_append_of_le_length h0]

theorem bnd_chain_mono (bnd : Nat → Nat) (c : Nat) (hmono : ∀ j, j < c → bnd j ≤ bnd (j + 1)) :
    ∀ i j, i ≤ j → j ≤ c → bnd i ≤ bnd j := by
  intro i j hij hjc
  induction j with
  | zero => cases Nat.le_zero.mp hij; exact le_rfl
  | succ j ihj =>
    rcases Nat.lt_or_ge i (j + 1) with hlt | hge
    · have h1 : bnd i ≤ bnd j := ihj (Nat.lt_succ_iff.mp hlt) (Nat.le_of_succ_le hjc)
      exact le_trans h1 (hmono j (Nat.lt_of_succ_le hjc))
    · have : i = j + 1 := le_antisymm hij hge
      subst this; exact le_rfl

theorem equalChunks_closed {T : Type} (bnd : Nat → Nat) (c : Nat) (rem : List T)
    (hmono : ∀ j, j < c → bnd j ≤ bnd (j + 1)) (hlast : bnd c ≤ rem.length) :
    equalChunks bnd (c + 1) rem =
      some (((List.range c).map (fun j => (rem.take (bnd (j + 1))).drop (bnd j))) ++
        [rem.drop (bnd c)]) := by
  induction c generalizing rem with
  | zero => rw [equalChunks_succ, if_pos hlast, equalChunks_zero]; rfl
  | succ c ih =>
    rw [equalChunks_succ, if_pos hlast]
    have hm : ∀ j, j < c → bnd j ≤ bnd (j + 1) := fun j hj => hmono j (Nat.lt_succ_of_lt hj)
    have hcle : bnd c ≤ bnd (c + 1) := hmono c (Nat.lt_succ_self c)
    have hlast2 : bnd c ≤ (rem.take (bnd (c + 1))).length := by
      rw [List.length_take]; exact le_min hcle (le_trans hcle hlast)
    rw [ih _ hm hlast2, Option.map_some', List.range_succ, List.map_append]
    congr 1
    have hmap : (List.range c).map
        (fun j => ((rem.take (bnd (c + 1))).take (bnd (j + 1))).drop (bnd j)) =
        (List.range c).map (fun j => (rem.take (bnd (j + 1))).drop (bnd j)) := by
      apply List.map_congr_left
      intro j hj
      have hj2 : bnd (j + 1) ≤ bnd (c + 1) :=
        bnd_chain_mono bnd (c + 1) hmono (j + 1) (c + 1)
          (Nat.succ_le_succ (Nat.le_of_lt (List.mem_range.mp hj))) le_rfl
      rw [List.take_take, min_eq_left hj2]
    rw [hmap]
    simp

/-! ### Bridging the computation-oriented rational helpers to the field API -/

theorem half_eq : half = 1 / 2 := by
  rw [half, Rat.mkRat_eq_divInt, Rat.divInt_eq_div]
  norm_num

theorem half_pos_rat : 0 < half := by rw [half_eq]; norm_num

theorem pow2_eq_zpow (e : ℤ) : pow2 e = (2 : ℚ) ^ e := by
  cases e with
  | ofNat m => simp [pow2, zpow_natCast]
  | negSucc m =>
    rw [pow2, Rat.mkRat_eq_divInt, Rat.divInt_eq_div, Int.negSucc_eq, zpow_neg]
    push_cast
    rw [one_div]
    congr 1
    rw [show ((m : ℤ) + 1) = ((m + 1 : ℕ) : ℤ) by push_cast; ring, zpow_natCast]

theorem ratDiv_eq (a b : ℚ) : ratDiv a b = a / b := (Rat.div_def' a b).symm

theorem toF32_zero : toF32 0 = 0 := by simp [toF32]

theorem natToF32_zero : natToF32 0 = 0 := by simp [natToF32, toF32]

theorem mulF32_zero (x : ℚ) : mulF32 x 0 = 0 := by
  rw [mulF32, mul_zero, toF32_zero]

theorem roundAwayNat_zero : roundAwayNat 0 = 0 := by
  rw [roundAwayNat, roundAwayInt, if_pos]
  · rfl
  · simpa using half_pos_rat

theorem boundary_core_zero (L N : Nat) : boundary L N 0 = 0 := by
  rw [boundary, natToF32_zero, mulF32_zero, roundAwayNat_zero]
  simp

/-! ### divide_equal_work on a pure transformation -/

theorem divide_equal_work_parallel {T R : Type} (cores : Nat) (input : List T) (f : T → Option R)
    (h : ¬ usesSequential input.length = true) :
    divide_equal_work cores input f =
      (equalChunks (boundary input.length cores) cores input).bind
        (fun chunks => (chunks.mapM (fun c : List T => c.mapM f)).bind
          (fun results => some results.flatten)) := by
  rw [divide_equal_work, if_neg h]
  rfl

theorem divide_equal_work_pure_of_some {T R : Type} (cores : Nat) (input : List T) (g : T → R)
    (out : List R) (hc : 1 ≤ cores)
    (h : divide_equal_work cores input (fun t => some (g t)) = some out) :
    out = input.map g := by
  by_cases hseq : usesSequential input.length = true
  · rw [divide_equal_work, if_pos hseq,
      mapM_eq_some_map _ g _ (fun a _ => rfl)] at h
    exact (Option.some_inj.mp h).symm
  · rw [divide_equal_work_parallel _ _ _ hseq] at h
    obtain ⟨c, rfl⟩ : ∃ c, cores = c + 1 := ⟨cores - 1, (Nat.succ_pred_eq_of_pos hc).symm⟩
    cases hch : equalChunks (boundary input.length (c + 1)) (c + 1) input with
    | none => rw [hch, Option.none_bind] at h; cases h
    | some cs =>
      rw [hch, Option.some_bind,
        mapM_eq_some_map (fun cl : List T => cl.mapM (fun t => some (g t)))
          (fun cl : List T => cl.map g) cs
          (fun cl _ => mapM_eq_some_map _ g cl (fun a _ => rfl)),
        Option.some_bind] at h
      have hout : out = (cs.map (List.map g)).flatten := (Option.some_inj.mp h).symm
      rw [hout, ← List.map_flatten, equalChunks_flatten _ _ _ _ hch, boundary_core_zero,
        List.drop_zero]

/-! ### Distribution of the serialized pops over the workers -/

theorem flatten_filter_range_perm {α : Type} (key : α → Nat) :
    ∀ (n : Nat) (l : List α), (∀ a ∈ l, key a < n) →
      List.Perm (((List.range n).map (fun w => l.filter (fun a => key a == w))).flatten) l := by
  intro n
  induction n with
  | zero =>
    intro l h
    cases l with
    | nil => simp
    | cons a t => exact absurd (h a (List.mem_cons_self a t)) (Nat.not_lt_zero _)
  | succ n ih =>
    intro l h
    rw [List.range_succ, List.map_append, List.flatten_append]
    simp only [List.map_cons, List.map_nil, List.flatten_cons, List.flatten_nil, List.append_nil]
    have hfilters : (List.range n).map (fun w => l.filter (fun a => key a == w)) =
        (List.range n).map
          (fun w => (l.filter (fun a => decide (key a < n))).filter (fun a => key a == w)) := by
      apply List.map_congr_left
      intro w hw
      have hwn : w < n := List.mem_range.mp hw
      rw [List.filter_filter]
      apply List.filter_congr
      intro a _
      by_cases hkw : key a = w
      · simp [hkw, hwn]
      · simp [hkw]
    rw [hfilters]
    have hsub : ∀ a ∈ l.filter (fun a => decide (key a < n)), key a < n := by
      intro a ha
      simpa using (List.mem_filter.mp ha).2
    have hperm1 := ih (l.filter (fun a => decide (key a < n))) hsub
    have hperm2 := hperm1.append (List.Perm.refl (l.filter (fun a => key a == n)))
    apply hperm2.trans
    have hlast : l.filter (fun a => key a == n) =
        l.filter (fun a => !(decide (key a < n))) := by
      apply List.filter_congr
      intro a ha
      have := h a ha
      by_cases hkn : key a = n
      · simp [hkn]
      · have : key a < n := by omega
        simp [hkn, this]
    rw [hlast]
    exact List.filter_append_perm _ l

theorem mem_enum_fst_lt {α : Type} (l : List α) (p : Nat × α) (hp : p ∈ l.enum) :
    p.1 < l.length := by
  have := List.mem_enum_iff_getElem?.mp hp
  obtain ⟨hlt, -⟩ := List.getElem?_eq_some_iff.mp this
  exact hlt

theorem recordedPairs_perm {T : Type} (cores : Nat) (sched : Nat → Nat) (input : List T)
    (hs : ∀ k, k < input.length → sched k < cores) :
    List.Perm (recordedPairs cores sched input) input.enum := by
  have h1 : recordedPairs cores sched input =
      (((List.range cores).map (fun w => (popStream input).enum.filter
        (fun kp => sched kp.1 == w))).map (List.map Prod.snd)).flatten := by
    rw [recordedPairs, List.map_map]
    rfl
  rw [h1, ← List.map_flatten]
  have h2 : List.Perm (((List.range cores).map (fun w => (popStream input).enum.filter
      (fun kp => sched kp.1 == w))).flatten) (popStream input).enum := by
    apply flatten_filter_range_perm (fun kp : Nat × (Nat × T) => sched kp.1) cores
    intro a ha
    apply hs
    have hlen := mem_enum_fst_lt _ _ ha
    simpa [popStream] using hlen
  have h3 := h2.map Prod.snd
  rw [List.enum_map_snd] at h3
  exact h3.trans (List.reverse_perm input.enum)

/-! ### The coordinator's buffer writes -/

theorem foldl_update_not_mem {R : Type} (ps : List (Nat × R)) (b : Nat → Option R) (i : Nat)
    (h : i ∉ ps.map Prod.fst) :
    ps.foldl (fun (acc : Nat → Option R) (pr : Nat × R) => Function.update acc pr.1 (some pr.2))
      b i = b i := by
  induction ps generalizing b with
  | nil => rfl
  | cons p t ih =>
    rw [List.foldl_cons, ih _ (fun hm => h (by simp [hm]))]
    exact Function.update_noteq (fun hh => h (by simp [hh])) _ _

theorem foldl_update_mem {R : Type} (ps : List (Nat × R)) (b : Nat → Option R) (i : Nat) (r : R)
    (hnd : (ps.map Prod.fst).Nodup) (hmem : (i, r) ∈ ps) :
    ps.foldl (fun (acc : Nat → Option R) (pr : Nat × R) => Function.update acc pr.1 (some pr.2))
      b i = some r := by
  induction ps generalizing b with
  | nil => cases hmem
  | cons p t ih =>
    rw [List.foldl_cons]
    rcases List.mem_cons.mp hmem with heq | hm
    · obtain rfl : p = (i, r) := heq.symm
      have hni : i ∉ t.map Prod.fst := by
        rw [List.map_cons, List.nodup_cons] at hnd
        exact hnd.1
      rw [foldl_update_not_mem _ _ _ hni]
      exact Function.update_same _ _ _
    · rw [List.map_cons, List.nodup_cons] at hnd
      exact ih _ hnd.2 hm

theorem range_length_map_getD {α : Type} (l : List α) (d : α) :
    (List.range l.length).map (fun i => l.getD i d) = l := by
  induction l with
  | nil => rfl
  | cons a t ih =>
    rw [List.length_cons, List.range_succ_eq_map, List.map_cons, List.map_map]
    congr 1

/-! ### divide_work on a pure transformation -/

theorem divide_work_parallel {T R : Type} (cores : Nat) (sched : Nat → Nat) (input : List T)
    (f : T → Option R) (h : ¬ usesSequential input.length = true) :
    divide_work cores sched input f =
      ((List.range cores).mapM
        (fun w => (workerPops sched input w).mapM
          (fun p => (f p.2).map (fun r => (p.1, r))))).bind
        (fun results => (List.range input.length).mapM (writeResults results.flatten)) := by
  rw [divide_work, if_neg h]
  rfl

theorem divide_work_pure {T R : Type} (cores : Nat) (sched : Nat → Nat) (input : List T)
    (g : T → R) (hs : ∀ k, k < input.length → sched k < cores) :
    divide_work cores sched input (fun t => some (g t)) = some (input.map g) := by
  by_cases hseq : usesSequential input.length = true
  · rw [divide_work, if_pos hseq, mapM_eq_some_map _ g _ (fun a _ => rfl)]
  · rw [divide_work_parallel _ _ _ _ hseq]
    have hne : input ≠ [] := by
      intro h0
      rw [h0] at hseq
      exact hseq (by rw [usesSequential]; rfl)
    have hworker : ∀ w ∈ List.range cores,
        (workerPops sched input w).mapM
          (fun p => ((fun t => some (g t)) p.2).map (fun r => (p.1, r)))
          = some ((workerPops sched input w).map (fun p => (p.1, g p.2))) :=
      fun w _ => mapM_eq_some_map _ _ _ (fun p _ => rfl)
    rw [mapM_eq_some_map _ (fun w => (workerPops sched input w).map (fun p => (p.1, g p.2)))
        _ hworker, Option.some_bind]
    have hflat : ((List.range cores).map
        (fun w => (workerPops sched input w).map (fun p => (p.1, g p.2)))).flatten
        = (recordedPairs cores sched input).map (fun p => (p.1, g p.2)) := by
      rw [recordedPairs, List.map_flatten, List.map_map]
      rfl
    rw [hflat]
    have hperm : List.Perm ((recordedPairs cores sched input).map (fun p => (p.1, g p.2)))
        (input.enum.map (fun p => (p.1, g p.2))) :=
      (recordedPairs_perm cores sched input hs).map _
    have hnd : (((recordedPairs cores sched input).map
        (fun p => (p.1, g p.2))).map Prod.fst).Nodup := by
      have heq : ((recordedPairs cores sched input).map
          (fun p => (p.1, g p.2))).map Prod.fst
          = (recordedPairs cores sched input).map Prod.fst := by
        rw [List.map_map]
        rfl
      rw [heq]
      have h2 : List.Perm ((recordedPairs cores sched input).map Prod.fst)
          (input.enum.map Prod.fst) := (recordedPairs_perm cores sched input hs).map _
      rw [h2.nodup_iff, List.enum_map_fst]
      exact List.nodup_range _
    have d : T := input.head hne
    have hbuf : ∀ i ∈ List.range input.length,
        writeResults ((recordedPairs cores sched input).map (fun p => (p.1, g p.2))) i
          = some (g (input.getD i d)) := by
      intro i hi
      have hilt : i < input.length := List.mem_range.mp hi
      have hmemE : (i, input.getD i d) ∈ input.enum := by
        rw [List.mem_enum_iff_getElem?]
        rw [List.getElem?_eq_getElem hilt]
        congr 1
        rw [List.getD_eq_getElem?_getD, List.getElem?_eq_getElem hilt]
        rfl
      have hmemP : (i, g (input.getD i d)) ∈
          (recordedPairs cores sched input).map (fun p => (p.1, g p.2)) := by
        apply hperm.mem_iff.mpr
        exact List.mem_map.mpr ⟨(i, input.getD i d), hmemE, rfl⟩
      exact foldl_update_mem _ _ i _ hnd hmemP
    rw [mapM_eq_some_map _ (fun i => g (input.getD i d)) _ hbuf]
    congr 1
    rw [show (fun i => g (input.getD i d)) = g ∘ (fun i => input.getD i d) from rfl,
      ← List.map_map, range_length_map_getD]

/-! ### A panicking transformation makes the whole call panic -/

theorem divide_equal_work_none_of_bad {T R : Type} (cores : Nat) (input : List T)
    (f : T → Option R) (hc : 1 ≤ cores) (x : T) (hx : x ∈ input) (hfx : f x = none) :
    divide_equal_work cores input f = none := by
  by_cases hseq : usesSequential input.length = true
  · rw [divide_equal_work, if_pos hseq]
    exact mapM_eq_none f input x hx hfx
  · rw [divide_equal_work_parallel _ _ _ hseq]
    obtain ⟨c, rfl⟩ : ∃ c, cores = c + 1 := ⟨cores - 1, (Nat.succ_pred_eq_of_pos hc).symm⟩
    cases hch : equalChunks (boundary input.length (c + 1)) (c + 1) input with
    | none => rw [Option.none_bind]
    | some cs =>
      rw [Option.some_bind]
      have hflat : cs.flatten = input := by
        rw [equalChunks_flatten _ _ _ _ hch, boundary_core_zero, List.drop_zero]
      have hxin : x ∈ cs.flatten := hflat ▸ hx
      obtain ⟨cl, hcl, hxcl⟩ := List.mem_flatten.mp hxin
      rw [mapM_eq_none _ cs cl hcl (mapM_eq_none f cl x hxcl hfx), Option.none_bind]

theorem divide_work_none_of_bad {T R : Type} (cores : Nat) (sched : Nat → Nat) (input : List T)
    (f : T → Option R) (hs : ∀ k, k < input.length → sched k < cores)
    (x : T) (hx : x ∈ input) (hfx : f x = none) :
    divide_work cores sched input f = none := by
  by_cases hseq : usesSequential input.length = true
  · rw [divide_work, if_pos hseq]
    exact mapM_eq_none f input x hx hfx
  · rw [divide_work_parallel _ _ _ _ hseq]
    obtain ⟨i, hi, hgot⟩ := List.getElem_of_mem hx
    have hmemE : (i, x) ∈ input.enum := by
      rw [List.mem_enum_iff_getElem?]
      rw [List.getElem?_eq_getElem hi, hgot]
    have hmemR : (i, x) ∈ recordedPairs cores sched input :=
      (recordedPairs_perm cores sched input hs).mem_iff.mpr hmemE
    obtain ⟨cl, hcl, hxcl⟩ := List.mem_flatten.mp hmemR
    obtain ⟨w, hw, rfl⟩ := List.mem_map.mp hcl
    have hworker : (workerPops sched input w).mapM
        (fun p => (f p.2).map (fun r => (p.1, r))) = none := by
      apply mapM_eq_none _ _ (i, x) hxcl
      rw [hfx]
      rfl
    rw [mapM_eq_none _ _ w hw hworker, Option.none_bind]

/-! ### Exactness of the fuel-bounded base-2 logarithm -/

theorem log2Fuel_spec : ∀ (fuel n : Nat), 1 ≤ n → n < 2 ^ fuel →
    2 ^ log2Fuel fuel n ≤ n ∧ n < 2 ^ (log2Fuel fuel n + 1) := by
  intro fuel
  induction fuel with
  | zero =>
    intro n h1 h2
    simp only [pow_zero] at h2
    omega
  | succ fuel ih =>
    intro n h1 h2
    simp only [log2Fuel]
    by_cases h2n : 2 ≤ n
    · rw [if_pos h2n]
      have hn2 : 1 ≤ n / 2 := by omega
      have hlt : n / 2 < 2 ^ fuel := by
        rw [Nat.div_lt_iff_lt_mul (by norm_num : 0 < 2)]
        calc n < 2 ^ (fuel + 1) := h2
          _ = 2 ^ fuel * 2 := by rw [pow_succ]
      obtain ⟨hl, hr⟩ := ih (n / 2) hn2 hlt
      constructor
      · rw [pow_succ]
        have h3 : 2 ^ log2Fuel fuel (n / 2) * 2 ≤ n / 2 * 2 :=
          Nat.mul_le_mul_right 2 hl
        omega
      · rw [pow_succ]
        have h4 : n / 2 + 1 ≤ 2 ^ (log2Fuel fuel (n / 2) + 1) := hr
        have h5 : (n / 2 + 1) * 2 ≤ 2 ^ (log2Fuel fuel (n / 2) + 1) * 2 :=
          Nat.mul_le_mul_right 2 h4
        omega
    · rw [if_neg h2n]
      have : n = 1 := by omega
      subst this
      simp

/-- The exact value appearing inside floorLog2Rat. -/
def ratLogArg (q : ℚ) : Nat := q.num.toNat * 2 ^ 300 / q.den

theorem floorLog2Rat_eq (q : ℚ) :
    floorLog2Rat q = (log2Fuel (ratLogArg q + 1) (ratLogArg q) : ℤ) - 300 := rfl

theorem log2Fuel_self_spec (n : Nat) (h1 : 1 ≤ n) :
    2 ^ log2Fuel (n + 1) n ≤ n ∧ n < 2 ^ (log2Fuel (n + 1) n + 1) :=
  log2Fuel_spec (n + 1) n h1
    (lt_of_lt_of_le (Nat.lt_two_pow n) (Nat.pow_le_pow_right (by norm_num) (Nat.le_succ n)))

/-! ### The floor of log2 over the rationals -/

theorem num_toNat_eq_mul_den (q : ℚ) (hq : 0 < q) : (q.num.toNat : ℚ) = q * q.den := by
  have h1 : ((q.num.toNat : ℤ) : ℚ) = (q.num : ℚ) := by
    rw [Int.toNat_of_nonneg (le_of_lt (Rat.num_pos.mpr hq))]
  have h2 : (q.num : ℚ) = q * q.den := by
    have h3 := Rat.num_div_den q
    have hd : ((q.den : ℚ)) ≠ 0 := (Nat.cast_ne_zero (R := ℚ)).mpr q.den_nz
    rw [div_eq_iff hd] at h3
    exact h3
  calc (q.num.toNat : ℚ) = ((q.num.toNat : ℤ) : ℚ) := by push_cast; rfl
    _ = (q.num : ℚ) := h1
    _ = q * q.den := h2

theorem ratLogArg_bounds (q : ℚ) (hq : 0 < q) :
    (ratLogArg q : ℚ) ≤ q * 2 ^ 300 ∧ q * 2 ^ 300 < (ratLogArg q : ℚ) + 1 := by
  have hd : 0 < q.den := q.pos
  have hdq : (0:ℚ) < q.den := by exact_mod_cast hd
  have ha : (q.num.toNat : ℚ) = q * q.den := num_toNat_eq_mul_den q hq
  constructor
  · have h1 : ratLogArg q * q.den ≤ q.num.toNat * 2 ^ 300 := by
      rw [ratLogArg]
      exact Nat.div_mul_le_self _ _
    have h2 : (ratLogArg q : ℚ) * q.den ≤ (q.num.toNat : ℚ) * 2 ^ 300 := by
      exact_mod_cast h1
    rw [ha] at h2
    have h3 : (ratLogArg q : ℚ) * q.den ≤ q * 2 ^ 300 * q.den := by
      calc (ratLogArg q : ℚ) * q.den ≤ q * q.den * 2 ^ 300 := h2
        _ = q * 2 ^ 300 * q.den := by ring
    exact le_of_mul_le_mul_right h3 hdq
  · have h1 : q.num.toNat * 2 ^ 300 < (ratLogArg q + 1) * q.den := by
      rw [ratLogArg]
      exact (Nat.div_lt_iff_lt_mul hd).mp (Nat.lt_succ_self _)
    have h2 : (q.num.toNat : ℚ) * 2 ^ 300 < ((ratLogArg q : ℚ) + 1) * q.den := by
      exact_mod_cast h1
    rw [ha] at h2
    have h3 : q * 2 ^ 300 * q.den < ((ratLogArg q : ℚ) + 1) * q.den := by
      calc q * 2 ^ 300 * q.den = q * q.den * 2 ^ 300 := by ring
        _ < ((ratLogArg q : ℚ) + 1) * q.den := h2
    exact lt_of_mul_lt_mul_right h3 (le_of_lt hdq)

theorem ratLogArg_one_le (q : ℚ) (hq : (2:ℚ) ^ (-300 : ℤ) ≤ q) : 1 ≤ ratLogArg q := by
  have hq0 : 0 < q := lt_of_lt_of_le (by positivity) hq
  by_contra h
  push_neg at h
  have hn0 : ratLogArg q = 0 := by omega
  have hb := (ratLogArg_bounds q hq0).2
  rw [hn0] at hb
  have h1 : (1:ℚ) ≤ q * 2 ^ 300 := by
    have h2 : (2:ℚ) ^ (-300 : ℤ) * 2 ^ 300 ≤ q * 2 ^ 300 := by
      apply mul_le_mul_of_nonneg_right hq
      positivity
    calc (1:ℚ) = 2 ^ (-300 : ℤ) * 2 ^ (300 : ℤ) := by
          rw [← zpow_add₀ (two_ne_zero : (2:ℚ) ≠ 0)]; norm_num
      _ = 2 ^ (-300 : ℤ) * 2 ^ (300 : ℕ) := by norm_num [zpow_natCast]
      _ ≤ q * 2 ^ 300 := h2
  simp only [Nat.cast_zero, zero_add] at hb
  linarith

theorem floorLog2Rat_le_self (q : ℚ) (hq : (2:ℚ) ^ (-300 : ℤ) ≤ q) :
    (2:ℚ) ^ floorLog2Rat q ≤ q := by
  have hq0 : 0 < q := lt_of_lt_of_le (by positivity) hq
  have hn1 : 1 ≤ ratLogArg q := ratLogArg_one_le q hq
  obtain ⟨hl, _⟩ := log2Fuel_self_spec _ hn1
  have h2 : ((2:ℚ)) ^ (log2Fuel (ratLogArg q + 1) (ratLogArg q) : ℕ) ≤ q * 2 ^ 300 := by
    calc ((2:ℚ)) ^ (log2Fuel (ratLogArg q + 1) (ratLogArg q) : ℕ)
        ≤ (ratLogArg q : ℚ) := by exact_mod_cast hl
      _ ≤ q * 2 ^ 300 := (ratLogArg_bounds q hq0).1
  rw [floorLog2Rat_eq, zpow_sub₀ (two_ne_zero : (2:ℚ) ≠ 0), div_le_iff (by positivity)]
  calc (2:ℚ) ^ (log2Fuel (ratLogArg q + 1) (ratLogArg q) : ℤ)
      = (2:ℚ) ^ (log2Fuel (ratLogArg q + 1) (ratLogArg q) : ℕ) := by rw [zpow_natCast]
    _ ≤ q * 2 ^ 300 := h2
    _ = q * 2 ^ (300 : ℤ) := by norm_num [zpow_natCast]

theorem lt_floorLog2Rat_succ (q : ℚ) (hq0 : 0 < q) :
    q < (2:ℚ) ^ (floorLog2Rat q + 1) := by
  have hb := (ratLogArg_bounds q hq0).2
  have hup : (ratLogArg q : ℚ) + 1 ≤
      (2:ℚ) ^ (log2Fuel (ratLogArg q + 1) (ratLogArg q) + 1 : ℕ) := by
    rcases Nat.eq_zero_or_pos (ratLogArg q) with h0 | h1
    · rw [h0]
      norm_num
      rw [show log2Fuel (0 + 1) 0 = 0 from rfl]
      norm_num
    · obtain ⟨_, hr⟩ := log2Fuel_self_spec _ h1
      have : ratLogArg q + 1 ≤ 2 ^ (log2Fuel (ratLogArg q + 1) (ratLogArg q) + 1) := hr
      exact_mod_cast this
  have h2 : q * 2 ^ 300 <
      (2:ℚ) ^ (log2Fuel (ratLogArg q + 1) (ratLogArg q) + 1 : ℕ) := lt_of_lt_of_le hb hup
  rw [floorLog2Rat_eq]
  have harr : (log2Fuel (ratLogArg q + 1) (ratLogArg q) : ℤ) - 300 + 1
      = (log2Fuel (ratLogArg q + 1) (ratLogArg q) + 1 : ℕ) - 300 := by push_cast; ring
  rw [harr, zpow_sub₀ (two_ne_zero : (2:ℚ) ≠ 0), lt_div_iff (by positivity)]
  calc q * 2 ^ (300 : ℤ) = q * 2 ^ 300 := by norm_num [zpow_natCast]
    _ < (2:ℚ) ^ (log2Fuel (ratLogArg q + 1) (ratLogArg q) + 1 : ℕ) := h2
    _ = (2:ℚ) ^ ((log2Fuel (ratLogArg q + 1) (ratLogArg q) + 1 : ℕ) : ℤ) := by
        rw [zpow_natCast]

theorem ratLogArg_mono (q1 q2 : ℚ) (h : q1 ≤ q2) : ratLogArg q1 ≤ ratLogArg q2 := by
  rcases le_or_lt q1 0 with h1 | h1
  · have hz : q1.num ≤ 0 := Rat.num_nonpos.mpr h1
    have : q1.num.toNat = 0 := Int.toNat_of_nonpos hz
    rw [ratLogArg, this]
    simp
  · have h2 : 0 < q2 := lt_of_lt_of_le h1 h
    have hb1 := (ratLogArg_bounds q1 h1).1
    have hb2 := (ratLogArg_bounds q2 h2).2
    have : (ratLogArg q1 : ℚ) < (ratLogArg q2 : ℚ) + 1 := by
      calc (ratLogArg q1 : ℚ) ≤ q1 * 2 ^ 300 := hb1
        _ ≤ q2 * 2 ^ 300 := by
            apply mul_le_mul_of_nonneg_right h
            positivity
        _ < (ratLogArg q2 : ℚ) + 1 := hb2
    have : ratLogArg q1 < ratLogArg q2 + 1 := by exact_mod_cast this
    omega

theorem floorLog2Rat_mono (q1 q2 : ℚ) (h : q1 ≤ q2) :
    floorLog2Rat q1 ≤ floorLog2Rat q2 := by
  have hn : ratLogArg q1 ≤ ratLogArg q2 := ratLogArg_mono q1 q2 h
  rw [floorLog2Rat_eq, floorLog2Rat_eq]
  rcases Nat.eq_zero_or_pos (ratLogArg q1) with h0 | h1
  · rw [h0, show log2Fuel (0 + 1) 0 = 0 from rfl]
    omega
  · have h2 : 1 ≤ ratLogArg q2 := le_trans h1 hn
    obtain ⟨hl1, hr1⟩ := log2Fuel_self_spec _ h1
    obtain ⟨hl2, hr2⟩ := log2Fuel_self_spec _ h2
    have hcross : 2 ^ log2Fuel (ratLogArg q1 + 1) (ratLogArg q1)
        < 2 ^ (log2Fuel (ratLogArg q2 + 1) (ratLogArg q2) + 1) :=
      lt_of_le_of_lt (le_trans hl1 hn) hr2
    have := (Nat.pow_lt_pow_iff_right (by norm_num : 1 < 2)).mp hcross
    omega

/-! ### Properties of the two rounding modes -/

theorem rHE_lower (q : ℚ) : q - 1 / 2 ≤ (roundHalfEvenInt q : ℚ) := by
  have h0 : (⌊q⌋ : ℚ) ≤ q := Int.floor_le q
  have h1 : q < ⌊q⌋ + 1 := Int.lt_floor_add_one q
  rw [roundHalfEvenInt]
  split_ifs with a b c <;> push_cast <;> rw [half_eq] at * <;> linarith

theorem rHE_upper (q : ℚ) : (roundHalfEvenInt q : ℚ) ≤ q + 1 / 2 := by
  have h0 : (⌊q⌋ : ℚ) ≤ q := Int.floor_le q
  have h1 : q < ⌊q⌋ + 1 := Int.lt_floor_add_one q
  rw [roundHalfEvenInt]
  split_ifs with a b c <;> push_cast <;> rw [half_eq] at * <;> linarith

theorem rHE_intCast (n : ℤ) : roundHalfEvenInt (n : ℚ) = n := by
  rw [roundHalfEvenInt, Int.floor_intCast]
  rw [if_pos]
  rw [sub_self]
  exact half_pos_rat

theorem rHE_nonneg (q : ℚ) (h : 0 ≤ q) : 0 ≤ roundHalfEvenInt q := by
  have h0 : 0 ≤ ⌊q⌋ := Int.floor_nonneg.mpr h
  rw [roundHalfEvenInt]
  split_ifs <;> omega

theorem rHE_mono (q1 q2 : ℚ) (h : q1 ≤ q2) :
    roundHalfEvenInt q1 ≤ roundHalfEvenInt q2 := by
  have hf : ⌊q1⌋ ≤ ⌊q2⌋ := Int.floor_mono h
  rcases lt_or_eq_of_le hf with hlt | heq
  · have hle1 : roundHalfEvenInt q1 ≤ ⌊q1⌋ + 1 := by
      rw [roundHalfEvenInt]; split_ifs <;> omega
    have hle2 : ⌊q2⌋ ≤ roundHalfEvenInt q2 := by
      rw [roundHalfEvenInt]; split_ifs <;> omega
    omega
  · have hfrac : q1 - (⌊q1⌋ : ℚ) ≤ q2 - (⌊q1⌋ : ℚ) := by linarith
    rw [roundHalfEvenInt, roundHalfEvenInt, ← heq]
    split_ifs with a b c d e f <;>
      first
        | omega
        | (exfalso; rw [half_eq] at *; linarith)

theorem rA_lower (q : ℚ) : q - 1 / 2 ≤ (roundAwayInt q : ℚ) := by
  have h0 : (⌊q⌋ : ℚ) ≤ q := Int.floor_le q
  have h1 : q < ⌊q⌋ + 1 := Int.lt_floor_add_one q
  rw [roundAwayInt]
  split_ifs with a <;> push_cast <;> rw [half_eq] at * <;> linarith

theorem rA_upper (q : ℚ) : (roundAwayInt q : ℚ) ≤ q + 1 / 2 := by
  have h0 : (⌊q⌋ : ℚ) ≤ q := Int.floor_le q
  have h1 : q < ⌊q⌋ + 1 := Int.lt_floor_add_one q
  rw [roundAwayInt]
  split_ifs with a <;> push_cast <;> rw [half_eq] at * <;> linarith

theorem rA_intCast (n : ℤ) : roundAwayInt (n : ℚ) = n := by
  rw [roundAwayInt, Int.floor_intCast, if_pos]
  rw [sub_self]
  exact half_pos_rat

theorem rA_nonneg (q : ℚ) (h : 0 ≤ q) : 0 ≤ roundAwayInt q := by
  have h0 : 0 ≤ ⌊q⌋ := Int.floor_nonneg.mpr h
  rw [roundAwayInt]
  split_ifs <;> omega

theorem rA_mono (q1 q2 : ℚ) (h : q1 ≤ q2) : roundAwayInt q1 ≤ roundAwayInt q2 := by
  have hf : ⌊q1⌋ ≤ ⌊q2⌋ := Int.floor_mono h
  rcases lt_or_eq_of_le hf with hlt | heq
  · have hle1 : roundAwayInt q1 ≤ ⌊q1⌋ + 1 := by
      rw [roundAwayInt]; split_ifs <;> omega
    have hle2 : ⌊q2⌋ ≤ roundAwayInt q2 := by
      rw [roundAwayInt]; split_ifs <;> omega
    omega
  · have hfrac : q1 - (⌊q1⌋ : ℚ) ≤ q2 - (⌊q1⌋ : ℚ) := by linarith
    rw [roundAwayInt, roundAwayInt, ← heq]
    split_ifs with a b <;>
      first
        | omega
        | (exfalso; rw [half_eq] at *; linarith)

theorem rA_add_nat (q : ℚ) (m : ℕ) : roundAwayInt (q + m) = roundAwayInt q + m := by
  have hfl : ⌊q + (m : ℚ)⌋ = ⌊q⌋ + m := by
    rw [show ((m : ℚ)) = ((m : ℤ) : ℚ) by push_cast; rfl, Int.floor_add_int]
  have hfrac : q + (m : ℚ) - ⌊q + (m : ℚ)⌋ = q - ⌊q⌋ := by
    rw [hfl]; push_cast; ring
  rw [roundAwayInt, roundAwayInt, hfrac, hfl]
  split_ifs <;> ring

theorem roundAwayNat_cast (q : ℚ) (h : 0 ≤ q) : (roundAwayNat q : ℤ) = roundAwayInt q := by
  rw [roundAwayNat, Int.toNat_of_nonneg (rA_nonneg q h)]

theorem roundAwayNat_mono (q1 q2 : ℚ) (h : q1 ≤ q2) : roundAwayNat q1 ≤ roundAwayNat q2 := by
  rw [roundAwayNat, roundAwayNat]
  exact Int.toNat_le_toNat (rA_mono q1 q2 h)

/-! ### Properties of the binary32 rounding -/

theorem pow2_pos (e : ℤ) : 0 < pow2 e := by
  rw [pow2_eq_zpow]
  positivity

theorem toF32_pos_eq (q : ℚ) (hq : 0 < q) :
    toF32 q = (roundHalfEvenInt (q / 2 ^ max (floorLog2Rat q - 23) (-149)) : ℚ)
      * 2 ^ max (floorLog2Rat q - 23) (-149) := by
  rw [toF32, if_neg (not_le.mpr hq), pow2_eq_zpow, pow2_eq_zpow, zpow_neg, ← div_eq_mul_inv]

theorem toF32_nonneg (q : ℚ) : 0 ≤ toF32 q := by
  rw [toF32]
  split_ifs with h
  · exact le_rfl
  · push_neg at h
    apply mul_nonneg _ (le_of_lt (pow2_pos _))
    have : 0 ≤ roundHalfEvenInt (q * pow2 (-max (floorLog2Rat q - 23) (-149))) :=
      rHE_nonneg _ (mul_nonneg (le_of_lt h) (le_of_lt (pow2_pos _)))
    exact_mod_cast this

theorem rHE_eq_zero_of_lt_half (x : ℚ) (h0 : 0 ≤ x) (h1 : x < 1 / 2) :
    roundHalfEvenInt x = 0 := by
  have hfl : ⌊x⌋ = 0 := by
    rw [Int.floor_eq_zero_iff]
    constructor
    · exact h0
    · linarith
  rw [roundHalfEvenInt, hfl, if_pos]
  rw [half_eq]
  push_cast
  linarith

theorem ratLogArg_pos_of_flog (q : ℚ) (h : -300 < floorLog2Rat q) : 1 ≤ ratLogArg q := by
  rw [floorLog2Rat_eq] at h
  by_contra hc
  push_neg at hc
  have h0 : ratLogArg q = 0 := by omega
  rw [h0, show log2Fuel (0 + 1) 0 = 0 from rfl] at h
  omega

theorem floorLog2Rat_le_self_of_arg (q : ℚ) (hq0 : 0 < q) (hn1 : 1 ≤ ratLogArg q) :
    (2:ℚ) ^ floorLog2Rat q ≤ q := by
  obtain ⟨hl, _⟩ := log2Fuel_self_spec _ hn1
  have h2 : ((2:ℚ)) ^ (log2Fuel (ratLogArg q + 1) (ratLogArg q) : ℕ) ≤ q * 2 ^ 300 := by
    calc ((2:ℚ)) ^ (log2Fuel (ratLogArg q + 1) (ratLogArg q) : ℕ)
        ≤ (ratLogArg q : ℚ) := by exact_mod_cast hl
      _ ≤ q * 2 ^ 300 := (ratLogArg_bounds q hq0).1
  rw [floorLog2Rat_eq, zpow_sub₀ (two_ne_zero : (2:ℚ) ≠ 0), div_le_iff₀ (by positivity)]
  calc (2:ℚ) ^ (log2Fuel (ratLogArg q + 1) (ratLogArg q) : ℤ)
      = (2:ℚ) ^ (log2Fuel (ratLogArg q + 1) (ratLogArg q) : ℕ) := by rw [zpow_natCast]
    _ ≤ q * 2 ^ 300 := h2
    _ = q * 2 ^ (300 : ℤ) := by norm_num [zpow_natCast]


theorem rHE_eq_zero_of_le_half (x : ℚ) (h0 : 0 ≤ x) (h1 : x ≤ 1 / 2) :
    roundHalfEvenInt x = 0 := by
  have hfl : ⌊x⌋ = 0 := by
    rw [Int.floor_eq_zero_iff]
    exact ⟨h0, by norm_num at h1 ⊢; linarith⟩
  rw [roundHalfEvenInt, hfl]
  rw [half_eq]
  push_cast
  split_ifs with a b <;> first | rfl | omega | (exfalso; linarith)

theorem zpow_toNat_eq (j : ℤ) (hj : 0 ≤ j) : (2:ℚ) ^ j = ((2 ^ j.toNat : ℤ) : ℚ) := by
  conv_lhs => rw [← Int.toNat_of_nonneg hj]
  push_cast
  rw [zpow_natCast]

theorem toF32_le_pow (q : ℚ) (hq : 0 < q) :
    toF32 q ≤ (2:ℚ) ^ (floorLog2Rat q + 1) := by
  rw [toF32_pos_eq q hq]
  have hup : q < 2 ^ (floorLog2Rat q + 1) := lt_floorLog2Rat_succ q hq
  have hEpos : (0:ℚ) < 2 ^ max (floorLog2Rat q - 23) (-149) := by positivity
  have hxle : q / 2 ^ max (floorLog2Rat q - 23) (-149)
      ≤ 2 ^ (floorLog2Rat q + 1 - max (floorLog2Rat q - 23) (-149)) := by
    rw [zpow_sub₀ (two_ne_zero : (2:ℚ) ≠ 0)]
    gcongr
  rcases le_or_lt 0 (floorLog2Rat q + 1 - max (floorLog2Rat q - 23) (-149)) with hj | hj
  · have hjcast : (2:ℚ) ^ (floorLog2Rat q + 1 - max (floorLog2Rat q - 23) (-149))
        = (((2 ^ (floorLog2Rat q + 1 - max (floorLog2Rat q - 23) (-149)).toNat : ℤ)) : ℚ) :=
      zpow_toNat_eq _ hj
    have hrle : roundHalfEvenInt (q / 2 ^ max (floorLog2Rat q - 23) (-149))
        ≤ 2 ^ (floorLog2Rat q + 1 - max (floorLog2Rat q - 23) (-149)).toNat := by
      have hm := rHE_mono _ _ (le_trans hxle (le_of_eq hjcast))
      rwa [rHE_intCast] at hm
    calc (roundHalfEvenInt (q / 2 ^ max (floorLog2Rat q - 23) (-149)) : ℚ)
          * 2 ^ max (floorLog2Rat q - 23) (-149)
        ≤ ((2 ^ (floorLog2Rat q + 1 - max (floorLog2Rat q - 23) (-149)).toNat : ℤ) : ℚ)
          * 2 ^ max (floorLog2Rat q - 23) (-149) := by
          apply mul_le_mul_of_nonneg_right _ hEpos.le
          exact_mod_cast hrle
      _ = 2 ^ (floorLog2Rat q + 1 - max (floorLog2Rat q - 23) (-149))
          * 2 ^ max (floorLog2Rat q - 23) (-149) := by rw [hjcast]
      _ = 2 ^ (floorLog2Rat q + 1) := by
          rw [← zpow_add₀ (two_ne_zero : (2:ℚ) ≠ 0)]
          congr 1
          omega
  · have hxhalf : q / 2 ^ max (floorLog2Rat q - 23) (-149) ≤ 1 / 2 := by
      apply le_trans hxle
      calc (2:ℚ) ^ (floorLog2Rat q + 1 - max (floorLog2Rat q - 23) (-149))
          ≤ 2 ^ (-1 : ℤ) := zpow_le_zpow_right₀ (by norm_num) (by omega)
        _ = 1 / 2 := by norm_num
    rw [rHE_eq_zero_of_le_half _ (div_nonneg hq.le hEpos.le) hxhalf]
    push_cast
    rw [zero_mul]
    positivity

theorem pow_le_toF32 (q : ℚ) (hq : 0 < q) (hn : 1 ≤ ratLogArg q)
    (hE : max (floorLog2Rat q - 23) (-149) = floorLog2Rat q - 23) :
    (2:ℚ) ^ floorLog2Rat q ≤ toF32 q := by
  rw [toF32_pos_eq q hq, hE]
  have hlow : (2:ℚ) ^ floorLog2Rat q ≤ q := floorLog2Rat_le_self_of_arg q hq hn
  have hx : (2:ℚ) ^ (23:ℤ) ≤ q / 2 ^ (floorLog2Rat q - 23) := by
    rw [le_div_iff₀ (by positivity), ← zpow_add₀ (two_ne_zero : (2:ℚ) ≠ 0)]
    rw [show (23:ℤ) + (floorLog2Rat q - 23) = floorLog2Rat q by ring]
    exact hlow
  have hcast : ((2:ℚ) ^ (23:ℤ)) = ((2 ^ 23 : ℤ) : ℚ) := by
    push_cast
    rw [show (23:ℤ) = ((23:ℕ):ℤ) by norm_num, zpow_natCast]
    norm_num
  have hrhe : (2 ^ 23 : ℤ) ≤ roundHalfEvenInt (q / 2 ^ (floorLog2Rat q - 23)) := by
    have h1 := rHE_lower (q / 2 ^ (floorLog2Rat q - 23))
    have h2 : ((2 ^ 23 : ℤ) : ℚ) - 1 <
        (roundHalfEvenInt (q / 2 ^ (floorLog2Rat q - 23)) : ℚ) := by
      rw [← hcast]
      linarith
    have h3 : (2 ^ 23 : ℤ) - 1 < roundHalfEvenInt (q / 2 ^ (floorLog2Rat q - 23)) := by
      exact_mod_cast h2
    omega
  calc (2:ℚ) ^ floorLog2Rat q = 2 ^ (23:ℤ) * 2 ^ (floorLog2Rat q - 23) := by
        rw [← zpow_add₀ (two_ne_zero : (2:ℚ) ≠ 0)]
        congr 1
        ring
    _ ≤ (roundHalfEvenInt (q / 2 ^ (floorLog2Rat q - 23)) : ℚ)
        * 2 ^ (floorLog2Rat q - 23) := by
        apply mul_le_mul_of_nonneg_right _ (by positivity)
        rw [hcast]
        exact_mod_cast hrhe
    _ = _ := rfl

theorem toF32_mono (q1 q2 : ℚ) (h12 : q1 ≤ q2) : toF32 q1 ≤ toF32 q2 := by
  rcases le_or_lt q1 0 with h1 | h1
  · rw [toF32, if_pos h1]
    exact toF32_nonneg q2
  · have h2 : 0 < q2 := lt_of_lt_of_le h1 h12
    have hkm : floorLog2Rat q1 ≤ floorLog2Rat q2 := floorLog2Rat_mono _ _ h12
    have hEm : max (floorLog2Rat q1 - 23) (-149) ≤ max (floorLog2Rat q2 - 23) (-149) :=
      max_le_max (by omega) le_rfl
    rcases eq_or_lt_of_le hEm with hEeq | hElt
    · rw [toF32_pos_eq q1 h1, toF32_pos_eq q2 h2, ← hEeq]
      apply mul_le_mul_of_nonneg_right _ (by positivity)
      have hmono := rHE_mono (q1 / 2 ^ max (floorLog2Rat q1 - 23) (-149))
        (q2 / 2 ^ max (floorLog2Rat q1 - 23) (-149)) (by gcongr)
      exact_mod_cast hmono
    · have hge1 : (-149 : ℤ) ≤ max (floorLog2Rat q1 - 23) (-149) := le_max_right _ _
      have hE2 : max (floorLog2Rat q2 - 23) (-149) = floorLog2Rat q2 - 23 := by
        rcases max_cases (floorLog2Rat q2 - 23) (-149 : ℤ) with ⟨he, _⟩ | ⟨he, _⟩
        · exact he
        · exfalso
          omega
      have hgt : (-149:ℤ) < floorLog2Rat q2 - 23 := by omega
      have hn2 : 1 ≤ ratLogArg q2 := ratLogArg_pos_of_flog q2 (by omega)
      have hE1ge : floorLog2Rat q1 - 23 ≤ max (floorLog2Rat q1 - 23) (-149) := le_max_left _ _
      have hk12 : floorLog2Rat q1 + 1 ≤ floorLog2Rat q2 := by omega
      calc toF32 q1 ≤ 2 ^ (floorLog2Rat q1 + 1) := toF32_le_pow q1 h1
        _ ≤ 2 ^ floorLog2Rat q2 := zpow_le_zpow_right₀ (by norm_num) hk12
        _ ≤ toF32 q2 := pow_le_toF32 q2 h2 hn2 hE2

theorem natToF32_nonneg (n : Nat) : 0 ≤ natToF32 n := toF32_nonneg _

theorem natToF32_mono (n1 n2 : Nat) (h : n1 ≤ n2) : natToF32 n1 ≤ natToF32 n2 :=
  toF32_mono _ _ (by exact_mod_cast h)

theorem boundary_mono (L N k1 k2 : Nat) (h : k1 ≤ k2) : boundary L N k1 ≤ boundary L N k2 := by
  rw [boundary, boundary]
  apply min_le_min _ le_rfl
  apply roundAwayNat_mono
  rw [mulF32, mulF32]
  apply toF32_mono
  exact mul_le_mul_of_nonneg_left (natToF32_mono _ _ h) (toF32_nonneg _)

theorem toF32_bounds (q : ℚ) (hlo : (2:ℚ) ^ (-126 : ℤ) ≤ q) :
    q * (1 - (2:ℚ) ^ (-24 : ℤ)) ≤ toF32 q ∧ toF32 q ≤ q * (1 + (2:ℚ) ^ (-24 : ℤ)) := by
  have hq0 : 0 < q := lt_of_lt_of_le (by positivity) hlo
  have hup := lt_floorLog2Rat_succ q hq0
  have hk : -126 ≤ floorLog2Rat q := by
    by_contra hc
    push_neg at hc
    have h3 : (2:ℚ) ^ (floorLog2Rat q + 1) ≤ 2 ^ (-126 : ℤ) :=
      zpow_le_zpow_right₀ (by norm_num) (by omega)
    linarith
  have hE : max (floorLog2Rat q - 23) (-149) = floorLog2Rat q - 23 :=
    max_eq_left (by omega)
  have hq300 : (2:ℚ) ^ (-300:ℤ) ≤ q :=
    le_trans (zpow_le_zpow_right₀ (by norm_num) (by norm_num)) hlo
  have hlow : (2:ℚ) ^ floorLog2Rat q ≤ q := floorLog2Rat_le_self q hq300
  rw [toF32_pos_eq q hq0, hE]
  have hEpos : (0:ℚ) < 2 ^ (floorLog2Rat q - 23) := by positivity
  have hl := rHE_lower (q / 2 ^ (floorLog2Rat q - 23))
  have hu := rHE_upper (q / 2 ^ (floorLog2Rat q - 23))
  have herr : (2:ℚ) ^ (floorLog2Rat q - 23) * (1 / 2) ≤ q * 2 ^ (-24:ℤ) := by
    have heq : (2:ℚ) ^ (floorLog2Rat q - 23) * (1 / 2)
        = 2 ^ floorLog2Rat q * 2 ^ (-24:ℤ) := by
      rw [show (1:ℚ)/2 = 2 ^ (-1 : ℤ) by norm_num]
      rw [← zpow_add₀ (two_ne_zero : (2:ℚ) ≠ 0), ← zpow_add₀ (two_ne_zero : (2:ℚ) ≠ 0)]
      congr 1
      ring
    rw [heq]
    exact mul_le_mul_of_nonneg_right hlow (by positivity)
  have hsub : (q / 2 ^ (floorLog2Rat q - 23) - 1 / 2) * 2 ^ (floorLog2Rat q - 23)
      = q - 2 ^ (floorLog2Rat q - 23) * (1 / 2) := by
    field_simp
    ring
  have hadd : (q / 2 ^ (floorLog2Rat q - 23) + 1 / 2) * 2 ^ (floorLog2Rat q - 23)
      = q + 2 ^ (floorLog2Rat q - 23) * (1 / 2) := by
    field_simp
    ring
  constructor
  · have h1 := mul_le_mul_of_nonneg_right hl hEpos.le
    rw [hsub] at h1
    nlinarith [herr, h1]
  · have h1 := mul_le_mul_of_nonneg_right hu hEpos.le
    rw [hadd] at h1
    nlinarith [herr, h1]

theorem toF32_nat_exact (m : ℕ) (h1 : 1 ≤ m) (h2 : m < 2 ^ 24) : toF32 (m : ℚ) = m := by
  have hq0 : (0:ℚ) < m := by exact_mod_cast h1
  have hq1 : (1:ℚ) ≤ m := by exact_mod_cast h1
  have hk0 : 0 ≤ floorLog2Rat (m:ℚ) := by
    by_contra hc
    push_neg at hc
    have hs := lt_floorLog2Rat_succ (m:ℚ) hq0
    have h3 : (2:ℚ) ^ (floorLog2Rat (m:ℚ) + 1) ≤ 2 ^ (0:ℤ) :=
      zpow_le_zpow_right₀ (by norm_num) (by omega)
    rw [zpow_zero] at h3
    linarith
  have hq300 : (2:ℚ) ^ (-300:ℤ) ≤ (m:ℚ) := by
    apply le_trans _ hq1
    rw [show (1:ℚ) = 2 ^ (0:ℤ) by norm_num]
    exact zpow_le_zpow_right₀ (by norm_num) (by norm_num)
  have hlow : (2:ℚ) ^ floorLog2Rat (m:ℚ) ≤ m := floorLog2Rat_le_self _ hq300
  have hk23 : floorLog2Rat (m:ℚ) ≤ 23 := by
    by_contra hc
    push_neg at hc
    have h3 : (2:ℚ) ^ (24:ℤ) ≤ 2 ^ floorLog2Rat (m:ℚ) :=
      zpow_le_zpow_right₀ (by norm_num) (by omega)
    have h4 : ((2:ℚ)) ^ (24:ℤ) = ((2 ^ 24 : ℕ) : ℚ) := by
      rw [show (24:ℤ) = ((24:ℕ):ℤ) by norm_num, zpow_natCast]
      push_cast
      rfl
    have h5 : (m:ℚ) < ((2 ^ 24 : ℕ) : ℚ) := by exact_mod_cast h2
    linarith
  have hE : max (floorLog2Rat (m:ℚ) - 23) (-149) = floorLog2Rat (m:ℚ) - 23 :=
    max_eq_left (by omega)
  rw [toF32_pos_eq _ hq0, hE]
  have hjeq : (((23 - floorLog2Rat (m:ℚ)).toNat : ℤ)) = 23 - floorLog2Rat (m:ℚ) :=
    Int.toNat_of_nonneg (by omega)
  have hxeq : (m:ℚ) / 2 ^ (floorLog2Rat (m:ℚ) - 23)
      = ((m * 2 ^ (23 - floorLog2Rat (m:ℚ)).toNat : ℕ) : ℚ) := by
    rw [div_eq_iff (by positivity)]
    push_cast
    rw [← zpow_natCast (2:ℚ) (23 - floorLog2Rat (m:ℚ)).toNat, mul_assoc,
      ← zpow_add₀ (two_ne_zero : (2:ℚ) ≠ 0),
      show ((23 - floorLog2Rat (m:ℚ)).toNat : ℤ) + (floorLog2Rat (m:ℚ) - 23) = 0 by omega,
      zpow_zero, mul_one]
  rw [hxeq,
    show ((m * 2 ^ (23 - floorLog2Rat (m:ℚ)).toNat : ℕ) : ℚ)
      = (((m * 2 ^ (23 - floorLog2Rat (m:ℚ)).toNat : ℕ) : ℤ) : ℚ) by push_cast; rfl,
    rHE_intCast]
  push_cast
  rw [← zpow_natCast (2:ℚ) (23 - floorLog2Rat (m:ℚ)).toNat, mul_assoc,
    ← zpow_add₀ (two_ne_zero : (2:ℚ) ≠ 0),
    show ((23 - floorLog2Rat (m:ℚ)).toNat : ℤ) + (floorLog2Rat (m:ℚ) - 23) = 0 by omega,
    zpow_zero, mul_one]

/-! ### Quantitative bounds on the f32 boundary values -/

theorem toF32_nat_exact_lt (m : ℕ) (h2 : m < 2 ^ 24) : toF32 (m : ℚ) = m := by
  rcases Nat.eq_zero_or_pos m with rfl | h1
  · simpa using toF32_zero
  · exact toF32_nat_exact m h1 h2

theorem eps_eq : (2:ℚ) ^ (-24 : ℤ) = 1 / 16777216 := by
  rw [zpow_neg, show (24:ℤ) = ((24:ℕ):ℤ) by norm_num, zpow_natCast]
  norm_num

theorem Vk_bounds (L N k : ℕ) (hL : 10 ≤ L) (hN : 1 ≤ N) (hLN : L * N ≤ 2 ^ 20)
    (hk : k ≤ N) :
    |mulF32 (divF32 (natToF32 L) (natToF32 N)) (natToF32 k) - (L:ℚ) / N * k|
      ≤ 1 / (4 * N) := by
  have hLle : L ≤ 2 ^ 20 := le_trans (Nat.le_mul_of_pos_right L hN) hLN
  have hNle : N ≤ 2 ^ 20 := le_trans (Nat.le_mul_of_pos_left N (by omega)) hLN
  have hNq : (0:ℚ) < N := by exact_mod_cast hN
  have hLq : (10:ℚ) ≤ L := by exact_mod_cast hL
  have hNq2 : (N:ℚ) ≤ 2 ^ 20 := by exact_mod_cast hNle
  rw [natToF32, natToF32, natToF32, toF32_nat_exact_lt L (by omega),
    toF32_nat_exact_lt N (by omega), toF32_nat_exact_lt k (by omega), divF32, ratDiv_eq]
  rcases Nat.eq_zero_or_pos k with rfl | hk1
  · rw [mulF32]
    push_cast
    rw [mul_zero, toF32_zero, mul_zero, sub_zero, abs_zero]
    positivity
  · have hkq : (1:ℚ) ≤ k := by exact_mod_cast hk1
    have hkN : (k:ℚ) ≤ N := by exact_mod_cast hk
    have hu0 : (0:ℚ) < (L:ℚ) / N := by positivity
    have hq0lo2 : (1:ℚ) / 2 ^ 20 ≤ (L:ℚ) / N := by
      rw [div_le_div_iff (by positivity) hNq]
      nlinarith
    have hq0lo : (2:ℚ) ^ (-126 : ℤ) ≤ (L:ℚ) / N := by
      apply le_trans _ hq0lo2
      rw [show (1:ℚ) / 2 ^ 20 = 2 ^ (-20 : ℤ) by
        rw [zpow_neg, show (20:ℤ) = ((20:ℕ):ℤ) by norm_num, zpow_natCast, one_div]]
      exact zpow_le_zpow_right₀ (by norm_num) (by norm_num)
    obtain ⟨htpw1, htpw2⟩ := toF32_bounds ((L:ℚ) / N) hq0lo
    rw [eps_eq] at htpw1 htpw2
    have htpwk_lo : (2:ℚ) ^ (-126 : ℤ) ≤ toF32 ((L:ℚ) / N) * k := by
      have h1 : (1:ℚ) / 2 ^ 20 * (1 / 2) ≤ (L:ℚ) / N * (1 - 1 / 16777216) := by
        nlinarith
      have h2 : (2:ℚ) ^ (-126 : ℤ) ≤ 1 / 2 ^ 20 * (1 / 2) := by
        rw [show (1:ℚ) / 2 ^ 20 * (1 / 2) = 2 ^ (-21 : ℤ) by
          rw [zpow_neg, show (21:ℤ) = ((21:ℕ):ℤ) by norm_num, zpow_natCast]
          norm_num]
        exact zpow_le_zpow_right₀ (by norm_num) (by norm_num)
      nlinarith
    obtain ⟨hV1, hV2⟩ := toF32_bounds (toF32 ((L:ℚ) / N) * k) htpwk_lo
    rw [eps_eq] at hV1 hV2
    rw [mulF32]
    have hukL : (L:ℚ) / N * k ≤ L := by
      rw [div_mul_eq_mul_div, div_le_iff₀ hNq]
      nlinarith
    have huk0 : (0:ℚ) ≤ (L:ℚ) / N * k := by positivity
    have hLNq : (L:ℚ) * N ≤ 2 ^ 20 := by exact_mod_cast hLN
    have hfin : (L:ℚ) * (3 * (1 / 16777216)) ≤ 1 / (4 * N) := by
      rw [le_div_iff₀ (by positivity)]
      nlinarith
    have hkq0 : (0:ℚ) ≤ k := by positivity
    set u : ℚ := (L:ℚ) / N with hu
    set T : ℚ := toF32 u with hT
    set V : ℚ := toF32 (T * (k:ℚ)) with hVdef
    have s4 : T * k * (1 + 1 / 16777216)
        ≤ u * (1 + 1 / 16777216) * k * (1 + 1 / 16777216) := by
      apply mul_le_mul_of_nonneg_right _ (by norm_num)
      exact mul_le_mul_of_nonneg_right htpw2 hkq0
    have s5 : u * (1 - 1 / 16777216) * k * (1 - 1 / 16777216)
        ≤ T * k * (1 - 1 / 16777216) := by
      apply mul_le_mul_of_nonneg_right _ (by norm_num)
      exact mul_le_mul_of_nonneg_right htpw1 hkq0
    have hc2 : ((1:ℚ) + 1 / 16777216) * (1 + 1 / 16777216) ≤ 1 + 3 * (1 / 16777216) := by
      norm_num
    have hc3 : (1:ℚ) - 3 * (1 / 16777216) ≤ (1 - 1 / 16777216) * (1 - 1 / 16777216) := by
      norm_num
    have hmul1 : u * k * (3 * (1 / 16777216)) ≤ (L:ℚ) * (3 * (1 / 16777216)) :=
      mul_le_mul_of_nonneg_right hukL (by norm_num)
    rw [abs_sub_le_iff]
    constructor
    · calc V - u * k ≤ T * k * (1 + 1 / 16777216) - u * k := by linarith [hV2]
        _ ≤ u * (1 + 1 / 16777216) * k * (1 + 1 / 16777216) - u * k := by linarith [s4]
        _ = u * k * ((1 + 1 / 16777216) * (1 + 1 / 16777216)) - u * k := by ring
        _ ≤ u * k * (1 + 3 * (1 / 16777216)) - u * k := by
            have hq := mul_le_mul_of_nonneg_left hc2 huk0
            linarith
        _ = u * k * (3 * (1 / 16777216)) := by ring
        _ ≤ (L:ℚ) * (3 * (1 / 16777216)) := hmul1
        _ ≤ 1 / (4 * N) := hfin
    · calc u * k - V ≤ u * k - T * k * (1 - 1 / 16777216) := by linarith [hV1]
        _ ≤ u * k - u * (1 - 1 / 16777216) * k * (1 - 1 / 16777216) := by linarith [s5]
        _ = u * k - u * k * ((1 - 1 / 16777216) * (1 - 1 / 16777216)) := by ring
        _ ≤ u * k - u * k * (1 - 3 * (1 / 16777216)) := by
            have hq := mul_le_mul_of_nonneg_left hc3 huk0
            linarith
        _ = u * k * (3 * (1 / 16777216)) := by ring
        _ ≤ (L:ℚ) * (3 * (1 / 16777216)) := hmul1
        _ ≤ 1 / (4 * N) := hfin

theorem ukL_le (L N k : ℕ) (hN : 1 ≤ N) (hk : k ≤ N) : (L:ℚ) / N * k ≤ L := by
  have hNq : (0:ℚ) < N := by exact_mod_cast hN
  have hkN : (k:ℚ) ≤ N := by exact_mod_cast hk
  have hL0 : (0:ℚ) ≤ L := by positivity
  rw [div_mul_eq_mul_div, div_le_iff₀ hNq]
  nlinarith

theorem boundary_as_rA (L N k : ℕ) (hL : 10 ≤ L) (hN : 1 ≤ N) (hLN : L * N ≤ 2 ^ 20)
    (hk : k ≤ N) :
    (boundary L N k : ℤ)
      = roundAwayInt (mulF32 (divF32 (natToF32 L) (natToF32 N)) (natToF32 k)) := by
  have hLle : L ≤ 2 ^ 20 := le_trans (Nat.le_mul_of_pos_right L hN) hLN
  have hV0 : 0 ≤ mulF32 (divF32 (natToF32 L) (natToF32 N)) (natToF32 k) := toF32_nonneg _
  have hVb := abs_le.mp (Vk_bounds L N k hL hN hLN hk)
  have hNq : (0:ℚ) < N := by exact_mod_cast hN
  have hNq1 : (1:ℚ) ≤ N := by exact_mod_cast hN
  have hquarter : (1:ℚ) / (4 * N) ≤ 1 := by
    rw [div_le_one (by positivity)]
    linarith
  have hupV : mulF32 (divF32 (natToF32 L) (natToF32 N)) (natToF32 k) ≤ (L:ℚ) + 1 := by
    have h1 := ukL_le L N k hN hk
    linarith [hVb.2]
  have hraU : roundAwayInt (mulF32 (divF32 (natToF32 L) (natToF32 N)) (natToF32 k))
      ≤ (L:ℤ) + 2 := by
    have h1 := rA_upper (mulF32 (divF32 (natToF32 L) (natToF32 N)) (natToF32 k))
    by_contra hc
    push_neg at hc
    have h2 : ((L:ℤ) + 3 : ℚ)
        ≤ (roundAwayInt (mulF32 (divF32 (natToF32 L) (natToF32 N)) (natToF32 k)) : ℚ) := by
      exact_mod_cast hc
    push_cast at h2
    linarith
  have hraN : roundAwayNat (mulF32 (divF32 (natToF32 L) (natToF32 N)) (natToF32 k))
      ≤ 2 ^ 64 - 1 := by
    rw [roundAwayNat]
    have h3 : ((L:ℤ) + 2).toNat ≤ 2 ^ 64 - 1 := by omega
    exact le_trans (Int.toNat_le_toNat hraU) h3
  rw [boundary, min_eq_left hraN, roundAwayNat, Int.toNat_of_nonneg (rA_nonneg _ hV0)]

set_option maxHeartbeats 1600000 in
theorem boundary_props (L N : ℕ) (hL : 10 ≤ L) (hN : 1 ≤ N) (hLN : L * N ≤ 2 ^ 20) :
    (∀ k, k + 1 ≤ N → boundary L N k + L / N ≤ boundary L N (k + 1) ∧
      boundary L N (k + 1) ≤ boundary L N k + L / N + 1) ∧
    boundary L N (N - 1) + L / N ≤ L ∧ L ≤ boundary L N (N - 1) + L / N + 1 := by
  have hNq : (0:ℚ) < N := by exact_mod_cast hN
  by_cases hd : N ∣ L
  · obtain ⟨m, hm⟩ := hd
    have hmval : L / N = m := by rw [hm]; exact Nat.mul_div_cancel_left m (by omega)
    have hLle : L ≤ 2 ^ 20 := le_trans (Nat.le_mul_of_pos_right L hN) hLN
    have hNle : N ≤ 2 ^ 20 := le_trans (Nat.le_mul_of_pos_left N (by omega)) hLN
    have hbnd : ∀ k, k ≤ N → boundary L N k = m * k := by
      intro k hk
      have hmk : m * k ≤ L := by
        calc m * k ≤ m * N := Nat.mul_le_mul_left m hk
          _ = L := by rw [hm]; ring
      rw [boundary, natToF32, natToF32, natToF32, toF32_nat_exact_lt L (by omega),
        toF32_nat_exact_lt N (by omega), toF32_nat_exact_lt k (by omega), divF32, ratDiv_eq]
      have hdivq : (L:ℚ) / N = (m:ℚ) := by
        rw [hm]
        push_cast
        rw [mul_comm]
        exact mul_div_cancel_right₀ (m:ℚ) (by exact_mod_cast (by omega : N ≠ 0))
      have hmle : m ≤ L := by
        rw [hm]
        exact Nat.le_mul_of_pos_left m (by omega)
      rw [hdivq, toF32_nat_exact_lt m (by omega), mulF32,
        show (m:ℚ) * k = ((m * k : ℕ) : ℚ) by push_cast; ring,
        toF32_nat_exact_lt (m * k) (by omega)]
      have hra : roundAwayInt ((m * k : ℕ) : ℚ) = (m * k : ℕ) := by
        rw [show ((m * k : ℕ) : ℚ) = (((m * k : ℕ) : ℤ) : ℚ) by push_cast; rfl, rA_intCast]
      rw [roundAwayNat, hra]
      simp only [Int.toNat_natCast]
      exact min_eq_left (by omega)
    refine ⟨fun k hk => ?_, ?_, ?_⟩
    · rw [hbnd k (by omega), hbnd (k + 1) hk, hmval]
      have hdist : m * (k + 1) = m * k + m := by ring
      omega
    · rw [hbnd (N - 1) (by omega), hmval]
      have hgoal : m * (N - 1) + m = L := by
        rw [hm]
        cases N with
        | zero => omega
        | succ n =>
          simp only [Nat.succ_sub_one]
          ring
      omega
    · rw [hbnd (N - 1) (by omega), hmval]
      have hgoal : m * (N - 1) + m = L := by
        rw [hm]
        cases N with
        | zero => omega
        | succ n =>
          simp only [Nat.succ_sub_one]
          ring
      omega
  · have hm1 : 1 ≤ L % N := by
      rcases Nat.eq_zero_or_pos (L % N) with h0 | h1
      · exact absurd (Nat.dvd_of_mod_eq_zero h0) hd
      · exact h1
    have hrN : L % N ≤ N - 1 := by
      have := Nat.mod_lt L (show 0 < N by omega)
      omega
    have hLrm : L = L / N * N + L % N := by
      rw [Nat.mul_comm (L / N) N]
      exact (Nat.div_add_mod L N).symm
    have hrNq : (1:ℚ) ≤ ((L % N : ℕ):ℚ) := by exact_mod_cast hm1
    have hrNq2 : ((L % N : ℕ):ℚ) ≤ (N:ℚ) - 1 := by
      have h2 : ((L % N : ℕ):ℚ) ≤ ((N - 1 : ℕ) : ℚ) := by exact_mod_cast hrN
      have h3 : ((N - 1 : ℕ) : ℚ) = (N:ℚ) - 1 := by
        have h4 : (1:ℕ) ≤ N := hN
        push_cast [h4]
        ring
      linarith [h3 ▸ h2]
    have hLNq2 : (L:ℚ) / N = ((L / N : ℕ):ℚ) + ((L % N : ℕ):ℚ) / N := by
      rw [div_eq_iff (ne_of_gt hNq), add_mul, div_mul_cancel₀ _ (ne_of_gt hNq)]
      exact_mod_cast congrArg (fun x : ℕ => (x:ℚ)) hLrm
    have hquarter : ∀ k, k ≤ N →
        |mulF32 (divF32 (natToF32 L) (natToF32 N)) (natToF32 k) - (L:ℚ) / N * k|
          ≤ 1 / (4 * N) := fun k hk => Vk_bounds L N k hL hN hLN hk
    have hstep : ∀ k, k + 1 ≤ N →
        (boundary L N k : ℤ) + (L / N : ℕ) ≤ boundary L N (k + 1) ∧
        (boundary L N (k + 1) : ℤ) ≤ boundary L N k + (L / N : ℕ) + 1 := by
      intro k hk
      have hVk := abs_le.mp (hquarter k (by omega))
      have hVk1 := abs_le.mp (hquarter (k + 1) hk)
      set Vk := mulF32 (divF32 (natToF32 L) (natToF32 N)) (natToF32 k) with hVkdef
      set Vk1 := mulF32 (divF32 (natToF32 L) (natToF32 N)) (natToF32 (k + 1)) with hVk1def
      have hr4 : ((L % N : ℕ):ℚ) / N = (4 * ((L % N : ℕ):ℚ)) / (4 * N) := by
        rw [div_eq_div_iff (ne_of_gt hNq) (ne_of_gt (by positivity : (0:ℚ) < 4 * (N:ℚ)))]
        ring
      push_cast at hVk1
      have hd1 : Vk + ((L / N : ℕ):ℚ) ≤ Vk1 := by
        have e2 : (1:ℚ) / (4 * N) + 1 / (4 * N) ≤ ((L % N : ℕ):ℚ) / N := by
          rw [div_add_div_same, hr4, div_le_div_iff (by positivity) (by positivity)]
          nlinarith
        nlinarith [hVk.1, hVk.2, hVk1.1, hVk1.2, hLNq2]
      have hd2 : Vk1 ≤ Vk + ((L / N : ℕ):ℚ) + 1 := by
        have e2 : (1:ℚ) / (4 * N) + 1 / (4 * N) + ((L % N : ℕ):ℚ) / N ≤ 1 := by
          rw [div_add_div_same, hr4, div_add_div_same, div_le_one (by positivity)]
          nlinarith
        nlinarith [hVk.1, hVk.2, hVk1.1, hVk1.2, hLNq2]
      constructor
      · rw [boundary_as_rA L N k hL hN hLN (by omega),
          boundary_as_rA L N (k + 1) hL hN hLN hk]
        calc roundAwayInt Vk + ((L / N : ℕ):ℤ) = roundAwayInt (Vk + ((L / N : ℕ):ℚ)) :=
              (rA_add_nat Vk (L / N)).symm
          _ ≤ roundAwayInt Vk1 := rA_mono _ _ hd1
      · rw [boundary_as_rA L N k hL hN hLN (by omega),
          boundary_as_rA L N (k + 1) hL hN hLN hk]
        calc roundAwayInt Vk1 ≤ roundAwayInt (Vk + ((L / N + 1 : ℕ) : ℚ)) := by
              apply rA_mono
              push_cast
              linarith [hd2]
          _ = roundAwayInt Vk + ((L / N : ℕ):ℤ) + 1 := by
              rw [rA_add_nat]
              push_cast
              ring
    have hlast : (boundary L N (N - 1) : ℤ) + (L / N : ℕ) ≤ L ∧
        (L:ℤ) ≤ boundary L N (N - 1) + (L / N : ℕ) + 1 := by
      have hVl := abs_le.mp (hquarter (N - 1) (by omega))
      set Vl := mulF32 (divF32 (natToF32 L) (natToF32 N)) (natToF32 (N - 1)) with hVldef
      have hN1 : ((N - 1 : ℕ) : ℚ) = (N:ℚ) - 1 := by
        have h4 : (1:ℕ) ≤ N := hN
        push_cast [h4]
        ring
      have hexp : (L:ℚ) / N * ((N - 1 : ℕ) : ℚ)
          = (L:ℚ) - ((L / N : ℕ):ℚ) - ((L % N : ℕ):ℚ) / N := by
        rw [hN1, mul_sub, mul_one, div_mul_cancel₀ _ (ne_of_gt hNq), hLNq2]
        ring
      rw [hexp] at hVl
      have hq4 : (0:ℚ) < 4 * N := by positivity
      have hfrac1 : (1:ℚ) / (4 * N) ≤ ((L % N : ℕ):ℚ) / N := by
        have hr4 : ((L % N : ℕ):ℚ) / N = (4 * ((L % N : ℕ):ℚ)) / (4 * N) := by
          rw [div_eq_div_iff (ne_of_gt hNq) (ne_of_gt (by positivity : (0:ℚ) < 4 * (N:ℚ)))]
          ring
        rw [hr4, div_le_div_iff (by positivity) (by positivity)]
        nlinarith
      have hfrac2 : ((L % N : ℕ):ℚ) / N + 1 / (4 * N) ≤ 1 := by
        have hr4 : ((L % N : ℕ):ℚ) / N = (4 * ((L % N : ℕ):ℚ)) / (4 * N) := by
          rw [div_eq_div_iff (ne_of_gt hNq) (ne_of_gt (by positivity : (0:ℚ) < 4 * (N:ℚ)))]
          ring
        rw [hr4, div_add_div_same, div_le_one (by positivity)]
        nlinarith
      have hbra := boundary_as_rA L N (N - 1) hL hN hLN (by omega)
      rw [← hVldef] at hbra
      have hraU := rA_upper Vl
      have hraL := rA_lower Vl
      constructor
      · rw [hbra]
        by_contra hc
        push_neg at hc
        have hcz : (L:ℤ) - (L / N : ℕ) + 1 ≤ roundAwayInt Vl := by omega
        have hc2 : (L:ℚ) - ((L / N : ℕ):ℚ) + 1 ≤ (roundAwayInt Vl : ℚ) := by
          exact_mod_cast hcz
        linarith [hVl.2]
      · rw [hbra]
        by_contra hc
        push_neg at hc
        have hcz : roundAwayInt Vl ≤ (L:ℤ) - (L / N : ℕ) - 2 := by omega
        have hc2 : (roundAwayInt Vl : ℚ) ≤ (L:ℚ) - ((L / N : ℕ):ℚ) - 2 := by
          exact_mod_cast hcz
        linarith [hVl.1]
    refine ⟨fun k hk => ?_, ?_, ?_⟩
    · have := hstep k hk
      omega
    · have := hlast.1
      omega
    · have := hlast.2
      omega

/-! ### Success and failure of the chunk extraction -/

theorem not_usesSequential_of_ge (len : Nat) (h : 10 ≤ len) :
    ¬ usesSequential len = true := by
  rw [usesSequential, PARALLEL_WORK_THRESHOLD]
  simp only [decide_eq_true_eq, not_lt]
  omega

theorem divide_equal_work_none_of_top {T R : Type} (cores c : Nat) (input : List T)
    (f : T → Option R) (hcores : cores = c + 1)
    (hseq : ¬ usesSequential input.length = true)
    (hover : input.length < boundary input.length cores c) :
    divide_equal_work cores input f = none := by
  subst hcores
  rw [divide_equal_work_parallel _ _ _ hseq, equalChunks_succ, if_neg (by omega),
    Option.none_bind]

theorem equalChunks_success {T : Type} (L N : ℕ) (input : List T) (hlen : input.length = L)
    (hL : 10 ≤ L) (hN : 1 ≤ N) (hLN : L * N ≤ 2 ^ 20) :
    equalChunks (boundary L N) N input =
      some (((List.range (N - 1)).map
          (fun j => (input.take (boundary L N (j + 1))).drop (boundary L N j))) ++
        [input.drop (boundary L N (N - 1))]) := by
  obtain ⟨c, rfl⟩ : ∃ c, N = c + 1 := ⟨N - 1, (Nat.succ_pred_eq_of_pos hN).symm⟩
  have props := boundary_props L (c + 1) hL hN hLN
  have hmono : ∀ j, j < c → boundary L (c + 1) j ≤ boundary L (c + 1) (j + 1) :=
    fun j _ => boundary_mono L (c + 1) j (j + 1) (Nat.le_succ j)
  have hple := props.2.1
  rw [Nat.add_sub_cancel] at hple
  have hlast : boundary L (c + 1) c ≤ input.length := by
    rw [hlen]
    exact le_trans (Nat.le_add_right _ _) hple
  rw [equalChunks_closed (boundary L (c + 1)) c input hmono hlast, Nat.add_sub_cancel]

/-! ### The claims -/

/-- Claim C1 (amended): for every pure transformation, divide_work returns the in-order
map of the input for every valid schedule, and whenever divide_equal_work returns a
result (it can panic on an out-of-bounds split for some worker counts), that result is
the in-order map of the input. -/
theorem C1_map_invariant {T R : Type} (cores : Nat) (sched : Nat → Nat) (input : List T)
    (g : T → R) (hc : 1 ≤ cores) (hs : ∀ k, k < input.length → sched k < cores) :
    divide_work cores sched input (fun t => some (g t)) = some (input.map g) ∧
    ∀ out, divide_equal_work cores input (fun t => some (g t)) = some out →
      out = input.map g :=
  ⟨divide_work_pure cores sched input g hs,
    fun out h => divide_equal_work_pure_of_some cores input g out hc h⟩

/-- Claim C1 witness. -/
theorem C1_witness :
    (1 ≤ 2 ∧ ∀ k, k < (List.range 12).length → (fun _ : Nat => 0) k < 2) ∧
    (divide_work 2 (fun _ => 0) (List.range 12) (fun t => some (t * 2))
        = some ((List.range 12).map (fun t => t * 2)) ∧
      ∀ out, divide_equal_work 2 (List.range 12) (fun t => some (t * 2)) = some out →
        out = (List.range 12).map (fun t => t * 2)) :=
  ⟨⟨by norm_num, fun k _ => by norm_num⟩,
    C1_map_invariant 2 (fun _ => 0) (List.range 12) (fun t => t * 2) (by norm_num)
      (fun k _ => by norm_num)⟩

/-- Claim C1 counterexample: with 257594359 workers and an input of length 67891878,
the first split index computed by divide_equal_work is 67891880, which exceeds the
input length, so the call panics (models as none) instead of returning the mapped
input. -/
theorem C1_counterexample :
    divide_equal_work 257594359 (List.replicate 67891878 (0 : ℕ)) (fun t => some t)
      ≠ some ((List.replicate 67891878 (0 : ℕ)).map (fun t => t)) := by
  have hlen : (List.replicate 67891878 (0 : ℕ)).length = 67891878 :=
    List.length_replicate 67891878 0
  have hb : boundary 67891878 257594359 257594358 = 67891880 := by with_unfolding_all rfl
  have hnone : divide_equal_work 257594359 (List.replicate 67891878 (0 : ℕ))
      (fun t => some t) = none := by
    apply divide_equal_work_none_of_top 257594359 257594358 _ _ (by norm_num)
    · rw [hlen]; decide
    · rw [hlen, hb]; norm_num
  rw [hnone]
  exact fun h => Option.noConfusion h

/-- Claim C2: an input of length exactly the threshold takes the parallel path, one of
length threshold − 1 takes the sequential path, and below the threshold both dividers
compute exactly the in-order sequential map. -/
theorem C2_threshold {T R : Type} (cores : Nat) (sched : Nat → Nat) (input : List T)
    (f : T → Option R) (hshort : input.length < PARALLEL_WORK_THRESHOLD) :
    usesSequential PARALLEL_WORK_THRESHOLD = false ∧
    usesSequential (PARALLEL_WORK_THRESHOLD - 1) = true ∧
    divide_equal_work cores input f = input.mapM f ∧
    divide_work cores sched input f = input.mapM f := by
  have hseq : usesSequential input.length = true := by
    rw [usesSequential]
    exact decide_eq_true hshort
  exact ⟨by decide, by decide, by rw [divide_equal_work, if_pos hseq],
    by rw [divide_work, if_pos hseq]⟩

/-- Claim C2 witness. -/
theorem C2_witness :
    ([1, 2, 3] : List ℕ).length < PARALLEL_WORK_THRESHOLD ∧
    (usesSequential PARALLEL_WORK_THRESHOLD = false ∧
      usesSequential (PARALLEL_WORK_THRESHOLD - 1) = true ∧
      divide_equal_work 4 ([1, 2, 3] : List ℕ) (fun t => some (t + 1))
        = ([1, 2, 3] : List ℕ).mapM (fun t => some (t + 1)) ∧
      divide_work 4 (fun _ => 1) ([1, 2, 3] : List ℕ) (fun t => some (t + 1))
        = ([1, 2, 3] : List ℕ).mapM (fun t => some (t + 1))) :=
  ⟨by decide, C2_threshold 4 (fun _ => 1) [1, 2, 3] (fun t => some (t + 1)) (by decide)⟩

/-- Claim C3 (amended): in the parallel path the split index for worker k is the
single-precision product round obtained by boundary, and under the size bound
L * N ≤ 2^20 the N contiguous partitions each have L / N or L / N + 1 elements, so
they differ in size by at most one. -/
theorem C3_chunk_sizes {T : Type} (L N : ℕ) (input : List T) (hlen : input.length = L)
    (hL : 10 ≤ L) (hN : 1 ≤ N) (hLN : L * N ≤ 2 ^ 20) :
    ∃ cs : List (List T),
      equalChunks (boundary L N) N input = some cs ∧
      cs.length = N ∧
      ∀ cl ∈ cs, cl.length = L / N ∨ cl.length = L / N + 1 := by
  refine ⟨_, equalChunks_success L N input hlen hL hN hLN, ?_, ?_⟩
  · rw [List.length_append, List.length_map, List.length_range, List.length_singleton]
    omega
  · intro cl hcl
    have props := boundary_props L N hL hN hLN
    rcases List.mem_append.mp hcl with hmem | hmem
    · obtain ⟨j, hj, rfl⟩ := List.mem_map.mp hmem
      have hjlt : j < N - 1 := List.mem_range.mp hj
      have hstep := props.1 j (by omega)
      have hb1L : boundary L N (j + 1) ≤ L := by
        have hchain : boundary L N (j + 1) ≤ boundary L N (N - 1) :=
          boundary_mono L N (j + 1) (N - 1) (by omega)
        exact le_trans hchain (le_trans (Nat.le_add_right _ _) props.2.1)
      rw [List.length_drop, List.length_take, hlen, min_eq_left hb1L]
      generalize hgen : L / N = m at hstep ⊢
      omega
    · have hcl2 : cl = input.drop (boundary L N (N - 1)) := by
        have := List.mem_singleton.mp hmem
        exact this
      subst hcl2
      rw [List.length_drop, hlen]
      have h1 := props.2.1
      have h2 := props.2.2
      generalize hgen : L / N = m at h1 h2 ⊢
      omega

/-- Claim C3 witness. -/
theorem C3_witness :
    ((List.range 12).length = 12 ∧ 10 ≤ 12 ∧ 1 ≤ 3 ∧ 12 * 3 ≤ 2 ^ 20) ∧
    (∃ cs : List (List ℕ), equalChunks (boundary 12 3) 3 (List.range 12) = some cs ∧
      cs.length = 3 ∧ ∀ cl ∈ cs, cl.length = 12 / 3 ∨ cl.length = 12 / 3 + 1) :=
  ⟨⟨by simp, by norm_num, by norm_num, by norm_num⟩,
    C3_chunk_sizes 12 3 (List.range 12) (by simp) (by norm_num) (by norm_num) (by norm_num)⟩

/-- Claim C3 counterexample: for length 100000000 and 3 workers, the ideal rounded
boundary round(L·1/3) is 33333333, but the single-precision computation yields
33333334; moreover the three partitions have sizes 33333334, 33333334 and 33333332,
the largest and smallest differing by two elements. -/
theorem C3_counterexample :
    roundAwayNat (Rat.divInt (100000000 * 1) 3) = 33333333 ∧
    boundary 100000000 3 1 = 33333334 ∧
    ∃ cs : List (List ℕ),
      equalChunks (boundary 100000000 3) 3 (List.replicate 100000000 (0 : ℕ)) = some cs ∧
      cs.map List.length = [33333334, 33333334, 33333332] := by
  have h1 : boundary 100000000 3 1 = 33333334 := by with_unfolding_all rfl
  have h2 : boundary 100000000 3 2 = 66666668 := by with_unfolding_all rfl
  have h0 : boundary 100000000 3 0 = 0 := boundary_core_zero 100000000 3
  have hlen : (List.replicate 100000000 (0 : ℕ)).length = 100000000 :=
    List.length_replicate 100000000 0
  refine ⟨by with_unfolding_all rfl, h1, ?_⟩
  have hmono : ∀ j, j < 2 → boundary 100000000 3 j ≤ boundary 100000000 3 (j + 1) :=
    fun j _ => boundary_mono 100000000 3 j (j + 1) (Nat.le_succ j)
  have hlast : boundary 100000000 3 2 ≤ (List.replicate 100000000 (0 : ℕ)).length := by
    rw [hlen, h2]; norm_num
  have hc := equalChunks_closed (boundary 100000000 3) 2
    (List.replicate 100000000 (0 : ℕ)) hmono hlast
  refine ⟨_, hc, ?_⟩
  simp only [List.range_succ, List.range_zero, List.nil_append, List.map_append,
    List.map_cons, List.map_nil, List.cons_append, List.singleton_append,
    List.length_drop, List.length_take, hlen, h0, h1, h2]
  norm_num

/-- Claim C4: for every serialized pop order in which each pop lands on some worker
below the core count, the multiset of (index, element) pairs recorded across all
workers is exactly the enumeration of the original input, so each recorded index is
the element's original position and every index in [0, length) is recorded exactly
once. -/
theorem C4_recorded_indices {T : Type} (cores : Nat) (sched : Nat → Nat) (input : List T)
    (hs : ∀ k, k < input.length → sched k < cores) :
    List.Perm (recordedPairs cores sched input) input.enum ∧
    List.Perm ((recordedPairs cores sched input).map Prod.fst)
      (List.range input.length) := by
  have h := recordedPairs_perm cores sched input hs
  refine ⟨h, ?_⟩
  have h2 := h.map Prod.fst
  rwa [List.enum_map_fst] at h2

/-- Claim C4 witness. -/
theorem C4_witness :
    (∀ k, k < ([5, 6, 7] : List ℕ).length → k % 2 < 2) ∧
    (List.Perm (recordedPairs 2 (fun k => k % 2) ([5, 6, 7] : List ℕ))
        ([5, 6, 7] : List ℕ).enum ∧
      List.Perm ((recordedPairs 2 (fun k => k % 2) ([5, 6, 7] : List ℕ)).map Prod.fst)
        (List.range ([5, 6, 7] : List ℕ).length)) :=
  ⟨fun k _ => Nat.mod_lt k (by norm_num),
    C4_recorded_indices 2 (fun k => k % 2) [5, 6, 7] (fun k _ => Nat.mod_lt k (by norm_num))⟩

/-- Claim C5 (amended): with the identity transformation, divide_work returns the input
unchanged for every valid schedule, and whenever divide_equal_work returns a result
(it can panic on an out-of-bounds split for some worker counts), that result is the
input unchanged. -/
theorem C5_identity_roundtrip {T : Type} (cores : Nat) (sched : Nat → Nat) (input : List T)
    (hc : 1 ≤ cores) (hs : ∀ k, k < input.length → sched k < cores) :
    divide_work cores sched input (fun t => some t) = some input ∧
    ∀ out, divide_equal_work cores input (fun t => some t) = some out → out = input := by
  constructor
  · have h1 := divide_work_pure cores sched input (fun t => t) hs
    rwa [List.map_id'] at h1
  · intro out h
    have h2 := divide_equal_work_pure_of_some cores input (fun t => t) out hc h
    rwa [List.map_id'] at h2

/-- Claim C5 witness. -/
theorem C5_witness :
    (1 ≤ 3 ∧ ∀ k, k < (List.range 11).length → k % 3 < 3) ∧
    (divide_work 3 (fun k => k % 3) (List.range 11) (fun t => some t)
        = some (List.range 11) ∧
      ∀ out, divide_equal_work 3 (List.range 11) (fun t => some t) = some out →
        out = List.range 11) :=
  ⟨⟨by norm_num, fun k _ => Nat.mod_lt k (by norm_num)⟩,
    C5_identity_roundtrip 3 (fun k => k % 3) (List.range 11) (by norm_num)
      (fun k _ => Nat.mod_lt k (by norm_num))⟩

/-- Claim C5 counterexample: with 961687456 workers and an input of length 378516508,
the first split index computed by divide_equal_work is 378516512, which exceeds the
input length, so the identity round-trip panics (models as none) instead of returning
the input. -/
theorem C5_counterexample :
    divide_equal_work 961687456 (List.replicate 378516508 (0 : ℕ)) (fun t => some t)
      ≠ some (List.replicate 378516508 (0 : ℕ)) := by
  have hlen : (List.replicate 378516508 (0 : ℕ)).length = 378516508 :=
    List.length_replicate 378516508 0
  have hb : boundary 378516508 961687456 961687455 = 378516512 := by with_unfolding_all rfl
  have hnone : divide_equal_work 961687456 (List.replicate 378516508 (0 : ℕ))
      (fun t => some t) = none := by
    apply divide_equal_work_none_of_top 961687456 961687455 _ _ (by norm_num)
    · rw [hlen]; decide
    · rw [hlen, hb]; norm_num
  rw [hnone]
  exact fun h => Option.noConfusion h

/-- Claim C6: both dividers are deterministic as a two-run property: two calls on equal
inputs with the same pure transformation yield equal outputs, for divide_work even
across different core counts and pop schedules. -/
theorem C6_deterministic {T R : Type} (cores1 cores2 : Nat) (sched1 sched2 : Nat → Nat)
    (input : List T) (g : T → R)
    (hs1 : ∀ k, k < input.length → sched1 k < cores1)
    (hs2 : ∀ k, k < input.length → sched2 k < cores2) :
    divide_work cores1 sched1 input (fun t => some (g t))
      = divide_work cores2 sched2 input (fun t => some (g t)) ∧
    divide_equal_work cores1 input (fun t => some (g t))
      = divide_equal_work cores1 input (fun t => some (g t)) :=
  ⟨by rw [divide_work_pure cores1 sched1 input g hs1,
      divide_work_pure cores2 sched2 input g hs2], rfl⟩

/-- Claim C6 witness. -/
theorem C6_witness :
    ((∀ k, k < ([10, 20] : List ℕ).length → (fun _ : Nat => 0) k < 2) ∧
      (∀ k, k < ([10, 20] : List ℕ).length → k % 3 < 3)) ∧
    (divide_work 2 (fun _ => 0) ([10, 20] : List ℕ) (fun t => some (t + 5))
        = divide_work 3 (fun k => k % 3) ([10, 20] : List ℕ) (fun t => some (t + 5)) ∧
      divide_equal_work 2 ([10, 20] : List ℕ) (fun t => some (t + 5))
        = divide_equal_work 2 ([10, 20] : List ℕ) (fun t => some (t + 5))) :=
  ⟨⟨fun k _ => by norm_num, fun k _ => Nat.mod_lt k (by norm_num)⟩,
    C6_deterministic 2 3 (fun _ => 0) (fun k => k % 3) [10, 20] (fun t => t + 5)
      (fun k _ => by norm_num) (fun k _ => Nat.mod_lt k (by norm_num))⟩

/-- Claim C7: if the transformation aborts (none) on any one input element, both
dividers abort as a whole (none): no output sequence and no partially-filled buffer is
ever returned. -/
theorem C7_abnormal_propagates {T R : Type} (cores : Nat) (sched : Nat → Nat)
    (input : List T) (f : T → Option R) (hc : 1 ≤ cores)
    (hs : ∀ k, k < input.length → sched k < cores)
    (x : T) (hx : x ∈ input) (hfx : f x = none) :
    divide_equal_work cores input f = none ∧ divide_work cores sched input f = none :=
  ⟨divide_equal_work_none_of_bad cores input f hc x hx hfx,
    divide_work_none_of_bad cores sched input f hs x hx hfx⟩

/-- Claim C7 witness. -/
theorem C7_witness :
    (1 ≤ 1 ∧ (∀ k, k < ([1, 2] : List ℕ).length → (fun _ : Nat => 0) k < 1) ∧
      (2 : ℕ) ∈ ([1, 2] : List ℕ) ∧
      (fun t : ℕ => if t = 2 then none else some t) 2 = none) ∧
    (divide_equal_work 1 ([1, 2] : List ℕ) (fun t => if t = 2 then none else some t)
        = none ∧
      divide_work 1 (fun _ => 0) ([1, 2] : List ℕ)
        (fun t => if t = 2 then none else some t) = none) :=
  ⟨⟨le_refl 1, fun k _ => by norm_num, by decide, rfl⟩,
    C7_abnormal_propagates 1 (fun _ => 0) [1, 2] (fun t => if t = 2 then none else some t)
      (le_refl 1) (fun k _ => by norm_num) 2 (by decide) rfl⟩

/-- Claim C8: an empty input is below the threshold, so both dividers take the
sequential path and return an empty output sequence without error. -/
theorem C8_empty_input {T R : Type} (cores : Nat) (sched : Nat → Nat) (f : T → Option R) :
    usesSequential ([] : List T).length = true ∧
    divide_equal_work cores ([] : List T) f = some [] ∧
    divide_work cores sched ([] : List T) f = some [] := by
  exact ⟨rfl, rfl, rfl⟩

/-- Claim C9 (amended): the split boundaries are monotone in the worker index, so the
index sequence handed to split_off never increases as extraction proceeds from the
last worker toward the first; and under the size bound L * N ≤ 2^20 the topmost split
index is within the input length, so the whole extraction succeeds without an
out-of-bounds split. -/
theorem C9_boundaries_safe {T : Type} (L N : ℕ) (input : List T) (hlen : input.length = L)
    (hL : 10 ≤ L) (hN : 1 ≤ N) :
    (∀ k1 k2, k1 ≤ k2 → boundary L N k1 ≤ boundary L N k2) ∧
    (L * N ≤ 2 ^ 20 → ∃ cs, equalChunks (boundary L N) N input = some cs) :=
  ⟨fun k1 k2 h => boundary_mono L N k1 k2 h,
    fun hLN => ⟨_, equalChunks_success L N input hlen hL hN hLN⟩⟩

/-- Claim C9 witness. -/
theorem C9_witness :
    ((List.range 15).length = 15 ∧ 10 ≤ 15 ∧ 1 ≤ 4) ∧
    ((∀ k1 k2, k1 ≤ k2 → boundary 15 4 k1 ≤ boundary 15 4 k2) ∧
      (15 * 4 ≤ 2 ^ 20 → ∃ cs, equalChunks (boundary 15 4) 4 (List.range 15) = some cs)) :=
  ⟨⟨by simp, by norm_num, by norm_num⟩,
    C9_boundaries_safe 15 4 (List.range 15) (by simp) (by norm_num) (by norm_num)⟩

/-- Claim C9 counterexample: with 665319272 workers and an input of length 372881648,
the very first split index, boundary at worker 665319271, is 372881664, strictly larger
than the remaining length, so split_off is out of bounds and the chunk extraction
fails. -/
theorem C9_counterexample :
    (List.replicate 372881648 (0 : ℕ)).length < boundary 372881648 665319272 665319271 ∧
    equalChunks (boundary 372881648 665319272) 665319272
      (List.replicate 372881648 (0 : ℕ)) = none := by
  have hb : boundary 372881648 665319272 665319271 = 372881664 := by with_unfolding_all rfl
  have hlen : (List.replicate 372881648 (0 : ℕ)).length = 372881648 :=
    List.length_replicate 372881648 0
  refine ⟨by rw [hlen, hb]; norm_num, ?_⟩
  have h : equalChunks (boundary 372881648 665319272) (665319271 + 1)
      (List.replicate 372881648 (0 : ℕ)) = none := by
    rw [equalChunks_succ, if_neg]
    rw [hlen, hb]
    norm_num
  exact h

/-- Claim C10 (amended): whenever divide_equal_work returns a result for a pure
transformation, divide_work returns the very same result for every valid schedule
(both equal the sequential map), so the strategies agree on every call on which both
are defined. -/
theorem C10_equiv_when_defined {T R : Type} (cores : Nat) (sched : Nat → Nat)
    (input : List T) (g : T → R) (hc : 1 ≤ cores)
    (hs : ∀ k, k < input.length → sched k < cores) (out : List R)
    (h : divide_equal_work cores input (fun t => some (g t)) = some out) :
    divide_work cores sched input (fun t => some (g t)) = some out := by
  rw [divide_work_pure cores sched input g hs,
    divide_equal_work_pure_of_some cores input g out hc h]

/-- Claim C10 witness. -/
theorem C10_witness :
    (1 ≤ 2 ∧ (∀ k, k < ([1, 2, 3] : List ℕ).length → (fun _ : Nat => 0) k < 2) ∧
      divide_equal_work 2 ([1, 2, 3] : List ℕ) (fun t => some (t + 1))
        = some [2, 3, 4]) ∧
    divide_work 2 (fun _ => 0) ([1, 2, 3] : List ℕ) (fun t => some (t + 1))
      = some [2, 3, 4] :=
  ⟨⟨by norm_num, fun k _ => by norm_num, rfl⟩,
    C10_equiv_when_defined 2 (fun _ => 0) [1, 2, 3] (fun t => t + 1) (by norm_num)
      (fun k _ => by norm_num) [2, 3, 4] rfl⟩

/-- Claim C10 counterexample: with 445092403 workers and an input of length 259250986,
divide_work returns the input mapped by the identity, but divide_equal_work computes a
first split index of 259250992, beyond the input length, and panics (models as none):
the two dividers are not extensionally equal. -/
theorem C10_counterexample :
    divide_work 445092403 (fun _ => 0) (List.replicate 259250986 (0 : ℕ))
        (fun t => some t) = some (List.replicate 259250986 (0 : ℕ)) ∧
    divide_equal_work 445092403 (List.replicate 259250986 (0 : ℕ))
      (fun t => some t) = none := by
  constructor
  · have h := divide_work_pure 445092403 (fun _ => 0) (List.replicate 259250986 (0 : ℕ))
      (fun t => t) (fun k _ => by norm_num)
    rwa [List.map_id'] at h
  · have hb : boundary 259250986 445092403 445092402 = 259250992 := by
      with_unfolding_all rfl
    have hlen : (List.replicate 259250986 (0 : ℕ)).length = 259250986 :=
      List.length_replicate 259250986 0
    apply divide_equal_work_none_of_top 445092403 445092402 _ _ (by norm_num)
    · rw [hlen]; decide
    · rw [hlen, hb]; norm_num
